import Mathlib

/-!
Verification of the sparse LDLᵗ factorization core (`src/sparse/linalg/cholesky.rs`
of the `sprs` repository): `ldl_symbolic`, `ldl_numeric`, `ldl_lsolve`,
`ldl_dsolve`, `ldl_ltsolve`.

The embedding is a shallow one: each Rust function becomes a Lean function over
caller-supplied buffers, modelled as `List`s indexed by `aget`/`aset`
(out-of-range reads yield `0`, out-of-range writes are dropped; the claims are
settled under size hypotheses where those edge cases cannot arise).  The
generic numeric element type `N : Num` is instantiated at `ℚ`, an exact field,
so "within floating tolerance" statements of the specification become exact
rational identities.  Rust `panic!` calls become `Option`/failure results.

The matrix-storage collaborators (`CsMat`, its permuted column iterator
`outer_iterator_papt`, and `is_symmetric`) live outside the verified source
tree; they are modelled from the specification's collaborator contract (§4.4,
§6) and are marked as such below.  The core factorization functions are
translated line by line from `cholesky.rs`.
-/

/-- Total read of a list buffer: `aget l i` is `l[i]`, or `0` out of range. -/
def aget {α : Type} [OfNat α 0] (l : List α) (i : Nat) : α :=
  l.getD i 0

/-- Total write to a list buffer: `aset l i v` is `l[i] := v`, dropped out of range. -/
def aset {α : Type} (l : List α) (i : Nat) (v : α) : List α :=
  l.set i v

theorem length_aset {α : Type} (l : List α) (i : Nat) (v : α) :
    (aset l i v).length = l.length := by
  simp [aset]

theorem aget_aset_eq {α : Type} [OfNat α 0] (l : List α) (i : Nat) (v : α)
    (h : i < l.length) : aget (aset l i v) i = v := by
  induction l generalizing i with
  | nil => simp at h
  | cons a l ih =>
    cases i with
    | zero => simp [aget, aset]
    | succ j => simpa [aget, aset, List.getD] using ih j (by simpa using h)

theorem aget_aset_ne {α : Type} [OfNat α 0] (l : List α) (i j : Nat) (v : α)
    (h : i ≠ j) : aget (aset l i v) j = aget l j := by
  induction l generalizing i j with
  | nil => simp [aget, aset]
  | cons a l ih =>
    cases i with
    | zero =>
      cases j with
      | zero => exact absurd rfl h
      | succ j' => simp [aget, aset, List.getD]
    | succ i' =>
      cases j with
      | zero => simp [aget, aset, List.getD]
      | succ j' =>
        simpa [aget, aset, List.getD] using ih i' j' (fun hh => h (by simp [hh]))

theorem aget_oob {α : Type} [OfNat α 0] (l : List α) (i : Nat)
    (h : l.length ≤ i) : aget l i = 0 := by
  simp [aget, List.getD, List.getElem?_eq_none h]

theorem aget_aset (l : List Nat) (i j : Nat) (v : Nat) (hi : i < l.length) :
    aget (aset l i v) j = if i = j then v else aget l j := by
  by_cases h : i = j
  · subst h; simp [aget_aset_eq _ _ _ hi]
  · simp [h, aget_aset_ne _ _ _ _ h]

/-!
## The sparse-matrix collaborator

Modelled from the spec: the `CsMat` storage container (column-major compressed
storage; §3 "Sparse symmetric matrix"), its permuted column iterator
`outer_iterator_papt` (§4.4: "for target column index k in increasing order
0..n−1, the iterator yields exactly the entries (π(j), value) for every stored
entry value at original row j in the original column such that
π(original column) = k"), and the `is_symmetric` check (§4.4: "compare the
matrix against its transpose for structural and value equality").  These
collaborators live outside the packaged source tree.
-/

structure CsMat where
  rows : Nat
  cols : Nat
  indptr : List Nat
  indices : List Nat
  data : List ℚ

/-- Stored entries `(row, value)` of column `j` of a CSC matrix. -/
def CsMat.col (m : CsMat) (j : Nat) : List (Nat × ℚ) :=
  (List.range' (aget m.indptr j) (aget m.indptr (j + 1) - aget m.indptr j)).map
    (fun p => (aget m.indices p, aget m.data p))

/-- Modelled from the spec: the permuted column iterator contract of §4.4.
`perm` is π as an array, `perm_inv` its inverse; target column `k` of `PAPᵗ`
reads original column `π⁻¹(k)` and relabels each stored row `j` as `π(j)`. -/
def outer_iterator_papt (m : CsMat) (perm perm_inv : List Nat) :
    Nat → List (Nat × ℚ) :=
  fun k => (m.col (aget perm_inv k)).map (fun jv => (aget perm jv.1, jv.2))

/-- First stored value at `(row i, column j)`, if any. -/
def CsMat.getEntry (m : CsMat) (i j : Nat) : Option ℚ :=
  ((m.col j).find? (fun rv => rv.1 == i)).map (fun rv => rv.2)

/-- Modelled from the spec: the symmetry-check collaborator, "compare the
matrix against its transpose for structural and value equality and signal
failure if they differ". -/
def is_symmetric (m : CsMat) : Bool :=
  m.rows == m.cols &&
    (List.range m.rows).all (fun i =>
      (List.range m.rows).all (fun j =>
        m.getEntry i j == m.getEntry j i))

inductive SymmetryCheck where
  | CheckSymmetry
  | DontCheckSymmetry

/-!
## Symbolic factorization (`ldl_symbolic`, cholesky.rs lines 17–74)

The output/scratch buffers of the symbolic pass.  In the source all buffers
are caller-allocated slices passed by mutable reference; here they are carried
through a state record.
-/

structure SymbState where
  parents : List Int
  l_nz : List Nat
  flag : List Nat
  deriving DecidableEq

/-- The elimination-tree walk of `ldl_symbolic` (the inner `while` of lines
55–62): climb from node `i` until reaching a node already flagged for the
current column `outer_ind`, assigning the parent of a root encountered on the
way to `outer_ind`, incrementing that node's count, and flagging it.  The
source loop is unbounded; `fuel` bounds the recursion and is instantiated with
`n`, which suffices because the walk visits strictly increasing node indices
below `outer_ind < n`. -/
def symbolicWalk (outer_ind : Nat) : Nat → Nat → SymbState → SymbState
  | 0, _, s => s
  | fuel + 1, i, s =>
    if aget s.flag i ≠ outer_ind then
      let s1 : SymbState :=
        if aget s.parents i = -1 then
          { s with parents := aset s.parents i (outer_ind : Int) }
        else s
      let s2 : SymbState := { s1 with l_nz := aset s1.l_nz i (aget s1.l_nz i + 1) }
      let s3 : SymbState := { s2 with flag := aset s2.flag i outer_ind }
      symbolicWalk outer_ind fuel (aget s3.parents i).toNat s3
    else s

/-- One column of the symbolic pass (lines 40–64).  The permuted iterator
yields the columns in increasing order, so the `enumerate` index `k` and the
iterator's `outer_ind` coincide; a single `k` stands for both. -/
def symbolicCol (n : Nat) (cols : Nat → List (Nat × ℚ)) (k : Nat)
    (s : SymbState) : SymbState :=
  let s0 : SymbState :=
    { parents := aset s.parents k (-1)
      l_nz := aset s.l_nz k 0
      flag := aset s.flag k k }
  (cols k).foldl
    (fun s iv => if iv.1 < k then symbolicWalk k n iv.1 s else s) s0

/-- The prefix-sum finalization of `ldl_symbolic` (lines 67–72): write the
running total into `l_colptr[0..n]` and the grand total into `l_colptr[n]`. -/
def buildColptr (n : Nat) (l_nz : List Nat) (l_colptr : List Nat) : List Nat :=
  let pr :=
    (List.range n).foldl
      (fun (acc : List Nat × Nat) k => (aset acc.1 k acc.2, acc.2 + aget l_nz k))
      (l_colptr, 0)
  aset pr.1 n pr.2

/-- The symbolic pass over the column stream `cols` (the permuted view of the
matrix), lines 38–73 of the source. -/
def ldl_symbolic_core (n : Nat) (cols : Nat → List (Nat × ℚ))
    (l_colptr : List Nat) (s : SymbState) : List Nat × SymbState :=
  let s1 := (List.range n).foldl (fun s k => symbolicCol n cols k s) s
  (buildColptr n s1.l_nz l_colptr, s1)

/-- `ldl_symbolic` (lines 17–74): optional symmetry gate (`panic!` on an
asymmetric input becomes `none`), then the symbolic pass over the permuted
column iterator. -/
def ldl_symbolic (m : CsMat) (perm perm_inv : List Nat) (l_colptr : List Nat)
    (s : SymbState) (check : SymmetryCheck) : Option (List Nat × SymbState) :=
  match check with
  | SymmetryCheck.DontCheckSymmetry =>
      some (ldl_symbolic_core m.rows (outer_iterator_papt m perm perm_inv) l_colptr s)
  | SymmetryCheck.CheckSymmetry =>
      if is_symmetric m then
        some (ldl_symbolic_core m.rows (outer_iterator_papt m perm perm_inv) l_colptr s)
      else none

/-!
## Numeric factorization (`ldl_numeric`, cholesky.rs lines 76–152)
-/

structure NumState where
  l_nz : List Nat
  l_indices : List Nat
  l_data : List ℚ
  diag : List ℚ
  y : List ℚ
  pattern : List Nat
  flag : List Nat
  deriving DecidableEq

/-- The elimination-tree walk of `ldl_numeric` (lines 111–116): starting from
an entry's row `i`, record each node not yet flagged for column `k` into the
front of `pattern_workspace`, flag it, and climb to its parent.  Returns the
number of recorded nodes together with the updated `pattern` and `flag`
buffers.  `fuel` is instantiated with `n`; the walk visits strictly increasing
indices bounded by `k < n`, so `n` steps suffice. -/
def numericWalk (k : Nat) (parents : List Int) :
    Nat → Nat → Nat → List Nat → List Nat → Nat × List Nat × List Nat
  | 0, _, len, pattern, flag => (len, pattern, flag)
  | fuel + 1, i, len, pattern, flag =>
    if aget flag i ≠ k then
      numericWalk k parents fuel (aget parents i).toNat (len + 1)
        (aset pattern len i) (aset flag i k)
    else (len, pattern, flag)

/-- The reversal loop of lines 117–121: move the `len` nodes recorded at the
front of `pattern_workspace` onto its tail, just below position `top`. -/
def revCopy : Nat → Nat → List Nat → Nat × List Nat
  | 0, top, pattern => (top, pattern)
  | len + 1, top, pattern =>
      revCopy len (top - 1) (aset pattern (top - 1) (aget pattern len))

/-- One stored entry of the pattern-discovery loop (lines 107–122): for an
entry `(i, val)` with `i ≤ k`, accumulate `val` into `y_workspace[i]`, walk
the elimination tree from `i`, and push the collected nodes in reverse onto
the tail of `pattern_workspace`.  Entries with `i > k` are skipped by the
iterator's filter. -/
def numericEntry (n k : Nat) (parents : List Int)
    (ts : Nat × NumState) (iv : Nat × ℚ) : Nat × NumState :=
  if iv.1 ≤ k then
    let s := ts.2
    let s1 : NumState := { s with y := aset s.y iv.1 (aget s.y iv.1 + iv.2) }
    let w := numericWalk k parents n iv.1 0 s1.pattern s1.flag
    let rc := revCopy w.1 ts.1 w.2.1
    (rc.1, { s1 with pattern := rc.2, flag := w.2.2 })
  else ts

/-- The pattern-discovery phase of column `k` (lines 102–122): initialize the
column (`flag[k] := k`, `y[k] := 0`, `l_nz[k] := 0`, `top := n`) and process
every stored entry of permuted column `k`.  Returns `top` and the updated
state; the discovered pattern is `pattern_workspace[top..n]`. -/
def numericDiscover (n k : Nat) (parents : List Int)
    (cols : Nat → List (Nat × ℚ)) (s : NumState) : Nat × NumState :=
  let s0 : NumState :=
    { s with
      flag := aset s.flag k k
      y := aset s.y k 0
      l_nz := aset s.l_nz k 0 }
  (cols k).foldl (numericEntry n k parents) (n, s0)

/-- One node of the sparse triangular solve of lines 128–147: consume the
accumulated `y_workspace[i]`, scatter the updates of column `i`'s already
written factor entries, compute the factor entry `l_ki = yi / diag[i]`, update
`diag[k]`, append `(k, l_ki)` to column `i` at its write cursor, and advance
the cursor. -/
def numericElimNode (k : Nat) (l_colptr : List Nat) (s : NumState) (i : Nat) :
    NumState :=
  let yi := aget s.y i
  let s1 : NumState := { s with y := aset s.y i 0 }
  let p2 := aget l_colptr i + aget s1.l_nz i
  let s2 : NumState :=
    (List.range' (aget l_colptr i) (aget s1.l_nz i)).foldl
      (fun s p =>
        let yIdx := aget s.l_indices p
        { s with y := aset s.y yIdx (aget s.y yIdx - aget s.l_data p * yi) }) s1
  let l_ki := yi / aget s2.diag i
  let s3 : NumState := { s2 with diag := aset s2.diag k (aget s2.diag k - l_ki * yi) }
  let s4 : NumState :=
    { s3 with l_indices := aset s3.l_indices p2 k, l_data := aset s3.l_data p2 l_ki }
  { s4 with l_nz := aset s4.l_nz i (aget s4.l_nz i + 1) }

/-- One full column of `ldl_numeric` without the singularity check (lines
96–147): pattern discovery, then `diag[k] := y[k]; y[k] := 0`, then the sparse
triangular solve over the discovered pattern `pattern_workspace[top..n]`. -/
def numericCol (n k : Nat) (parents : List Int) (l_colptr : List Nat)
    (cols : Nat → List (Nat × ℚ)) (s : NumState) : NumState :=
  let ds := numericDiscover n k parents cols s
  let s1 := ds.2
  let s2 : NumState := { s1 with diag := aset s1.diag k (aget s1.y k) }
  let s3 : NumState := { s2 with y := aset s2.y k 0 }
  ((List.range' ds.1 (n - ds.1)).map (aget s3.pattern)).foldl
    (numericElimNode k l_colptr) s3

/-- One column of `ldl_numeric` with the singularity check of lines 148–150:
`panic!("Matrix is singular")` when `diag[k]` is exactly zero becomes
`none`. -/
def numericColChecked (n : Nat) (parents : List Int) (l_colptr : List Nat)
    (cols : Nat → List (Nat × ℚ)) (k : Nat) (s : NumState) : Option NumState :=
  let s1 := numericCol n k parents l_colptr cols s
  if aget s1.diag k = 0 then none else some s1

/-- The first `m` columns of the numeric pass, chained through `Option`. -/
def ldl_numeric_upto (n : Nat) (parents : List Int) (l_colptr : List Nat)
    (cols : Nat → List (Nat × ℚ)) (s : NumState) (m : Nat) : Option NumState :=
  (List.range m).foldl
    (fun os k => os.bind (numericColChecked n parents l_colptr cols k)) (some s)

/-- The numeric pass over the column stream `cols` (lines 94–151). -/
def ldl_numeric_core (n : Nat) (parents : List Int) (l_colptr : List Nat)
    (cols : Nat → List (Nat × ℚ)) (s : NumState) : Option NumState :=
  ldl_numeric_upto n parents l_colptr cols s n

/-- `ldl_numeric` (lines 76–152) over the permuted column iterator. -/
def ldl_numeric (m : CsMat) (l_colptr : List Nat) (parents : List Int)
    (perm perm_inv : List Nat) (s : NumState) : Option NumState :=
  ldl_numeric_core m.rows parents l_colptr (outer_iterator_papt m perm perm_inv) s

/-!
## Triangular solvers (cholesky.rs lines 154–202)
-/

/-- `ldl_lsolve` (lines 154–170): iterate factor columns in increasing order;
for every stored entry `(row, value)` of the column, subtract
`value * x[col]` from `x[row]`. -/
def ldl_lsolve (l_colptr l_indices : List Nat) (l_data : List ℚ)
    (x : List ℚ) : List ℚ :=
  (List.range (l_colptr.length - 1)).foldl
    (fun x c =>
      (List.range' (aget l_colptr c) (aget l_colptr (c + 1) - aget l_colptr c)).foldl
        (fun x p =>
          let r := aget l_indices p
          aset x r (aget x r - aget l_data p * aget x c)) x) x

/-- `ldl_ltsolve` (lines 172–191): iterate factor columns in decreasing order
(`windows(2).enumerate().rev()`); for every stored entry `(row, value)` of the
column, subtract `value * x[row]` from `x[col]`. -/
def ldl_ltsolve (l_colptr l_indices : List Nat) (l_data : List ℚ)
    (x : List ℚ) : List ℚ :=
  ((List.range (l_colptr.length - 1)).reverse).foldl
    (fun x c =>
      (List.range' (aget l_colptr c) (aget l_colptr (c + 1) - aget l_colptr c)).foldl
        (fun x p => aset x c (aget x c - aget l_data p * aget x (aget l_indices p)))
        x) x

/-- `ldl_dsolve` (lines 193–202): elementwise division of `x` by `d`, paired
through `zip`, so exactly the first `min (length x) (length d)` entries are
divided and any remaining entries of `x` are left unchanged. -/
def ldl_dsolve : List ℚ → List ℚ → List ℚ
  | _, [] => []
  | [], xv :: x => xv :: x
  | dv :: d, xv :: x => (xv / dv) :: ldl_dsolve d x

/-!
## The 10×10 fixture of the source's test module (cholesky.rs lines 211–278)

`test_mat1`, `test_vec1`, the expected factors and the expected solution.
The `f64` literals of the source are read as exact rationals.
-/

def test_mat1 : CsMat :=
  { rows := 10
    cols := 10
    indptr := [0, 2, 5, 6, 7, 13, 14, 17, 20, 24, 28]
    indices :=
      [0, 8,
       1, 4, 9,
       2,
       3,
       1, 4, 6, 7, 8, 9,
       5,
       4, 6, 9,
       4, 7, 8,
       0, 4, 7, 8,
       1, 4, 6, 9]
    data :=
      [17/10, 13/100,
       1, 2/100, 1/100,
       15/10,
       11/10,
       2/100, 26/10, 16/100, 9/100, 52/100, 53/100,
       12/10,
       16/100, 13/10, 56/100,
       9/100, 16/10, 11/100,
       13/100, 52/100, 11/100, 14/10,
       1/100, 53/100, 56/100, 31/10] }

def test_vec1 : List ℚ :=
  [287/1000, 22/100, 45/100, 44/100, 2486/1000, 72/100,
   155/100, 1424/1000, 1621/1000, 3759/1000]

/-- The identity permutation on `{0,…,9}`, as used by `test_factor1`. -/
def identityPerm10 : List Nat := List.range 10

/-- The symbolic factorization of the fixture, with the zero-initialized
buffers of `test_factor1` and symmetry checking enabled. -/
def fixtureSymbolic : Option (List Nat × SymbState) :=
  ldl_symbolic test_mat1 identityPerm10 identityPerm10 (List.replicate 11 0)
    { parents := List.replicate 10 0
      l_nz := List.replicate 10 0
      flag := List.replicate 10 0 }
    SymmetryCheck.CheckSymmetry

/-- The numeric factorization of the fixture: as in `test_factor1`, the
`l_nz` and `flag_workspace` buffers are handed over from the symbolic pass
unreset, `l_indices`/`l_data` are zero-initialized of size `l_colptr[10] = 13`,
and the remaining buffers are zero-initialized of size 10. -/
def fixtureNumeric : Option (List Nat × NumState) :=
  fixtureSymbolic.bind (fun pr =>
    (ldl_numeric test_mat1 pr.1 pr.2.parents identityPerm10 identityPerm10
        { l_nz := pr.2.l_nz
          l_indices := List.replicate 13 0
          l_data := List.replicate 13 0
          diag := List.replicate 10 0
          y := List.replicate 10 0
          pattern := List.replicate 10 0
          flag := pr.2.flag }).map (fun t => (pr.1, t)))

/-- The solve of `test_factor_solve1`: forward, diagonal, then backward
substitution applied to the fixture right-hand side. -/
def fixtureSolve : Option (List ℚ) :=
  fixtureNumeric.map (fun pr =>
    ldl_ltsolve pr.1 pr.2.l_indices pr.2.l_data
      (ldl_dsolve pr.2.diag
        (ldl_lsolve pr.1 pr.2.l_indices pr.2.l_data test_vec1)))

/-!
## C1: the concrete fixture scenario
-/

set_option maxRecDepth 100000

unseal Rat.add Rat.mul Rat.sub Rat.inv in
/-- C1: for the fixed 10×10 symmetric fixture matrix with the identity
permutation and symmetry checking enabled, `ldl_symbolic` produces
`l_colptr = [0,1,3,3,3,7,7,10,12,13,13]`; `ldl_numeric` then produces factor
row indices `l_indices = [8,4,9,6,7,8,9,7,8,9,8,9,9]` and a diagonal whose
first six entries are `[1.7, 1.0, 1.5, 1.1, 2.5996, 1.2]`; and running
`ldl_lsolve`, `ldl_dsolve`, `ldl_ltsolve` in sequence on the fixture
right-hand side yields `[0.1, 0.2, …, 1.0]`.  Over the exact rationals the
"within floating tolerance" equalities of the claim hold exactly.
The `unseal` restores kernel-evaluability of the exact rational arithmetic. -/
theorem fixture_factor_solve :
    fixtureSymbolic.map (fun pr => pr.1) =
      some [0, 1, 3, 3, 3, 7, 7, 10, 12, 13, 13] ∧
    fixtureNumeric.map (fun pr => pr.2.l_indices) =
      some [8, 4, 9, 6, 7, 8, 9, 7, 8, 9, 8, 9, 9] ∧
    fixtureNumeric.map (fun pr => pr.2.diag.take 6) =
      some [17/10, 1, 15/10, 11/10, 25996/10000, 12/10] ∧
    fixtureSolve =
      some [1/10, 2/10, 3/10, 4/10, 5/10, 6/10, 7/10, 8/10, 9/10, 1] := by
  refine ⟨by decide, by decide, by decide, by decide⟩

/-!
## C10: frame behaviour of `ldl_dsolve`
-/

/-- C10: `ldl_dsolve` divides exactly the first `min (length x) (length d)`
entries of `x` elementwise by the corresponding entries of `d`, leaves every
remaining entry of `x` unchanged, preserves the length of `x`, and is total —
a length mismatch between `d` and `x` is never reported as an error. -/
theorem ldl_dsolve_frame (d x : List ℚ) :
    (ldl_dsolve d x).length = x.length ∧
    (∀ j, j < min x.length d.length →
      aget (ldl_dsolve d x) j = aget x j / aget d j) ∧
    (∀ j, min x.length d.length ≤ j → aget (ldl_dsolve d x) j = aget x j) := by
  induction d generalizing x with
  | nil =>
    cases x with
    | nil => exact ⟨rfl, fun j hj => by simp at hj, fun j hj => rfl⟩
    | cons xv xs =>
      refine ⟨rfl, fun j hj => by simp at hj, fun j hj => rfl⟩
  | cons dv ds ih =>
    cases x with
    | nil => exact ⟨rfl, fun j hj => by simp at hj, fun j hj => rfl⟩
    | cons xv xs =>
      obtain ⟨hlen, hdiv, hframe⟩ := ih xs
      refine ⟨by simpa [ldl_dsolve] using hlen, ?_, ?_⟩
      · intro j hj
        cases j with
        | zero => simp [ldl_dsolve, aget, List.getD]
        | succ j' =>
          have hj' : j' < min xs.length ds.length := by
            simp only [List.length_cons] at hj; omega
          simpa [ldl_dsolve, aget, List.getD] using hdiv j' hj'
      · intro j hj
        cases j with
        | zero =>
          exfalso
          simp only [List.length_cons] at hj; omega
        | succ j' =>
          have hj' : min xs.length ds.length ≤ j' := by
            simp only [List.length_cons] at hj; omega
          simpa [ldl_dsolve, aget, List.getD] using hframe j' hj'

/-- Witness for C10 at a concrete length-mismatched input: `d` shorter than
`x`, the tail entry of `x` is untouched. -/
theorem ldl_dsolve_frame_witness :
    (ldl_dsolve [2] [4, 5]).length = 2 ∧
    aget (ldl_dsolve [2] [4, 5]) 0 = (4 : ℚ) / 2 ∧
    aget (ldl_dsolve [2] [4, 5]) 1 = 5 := by
  refine ⟨(ldl_dsolve_frame [2] [4, 5]).1, ?_, ?_⟩
  · simpa using (ldl_dsolve_frame [2] [4, 5]).2.1 0 (by simp)
  · simpa using (ldl_dsolve_frame [2] [4, 5]).2.2 1 (by simp)

/-!
## C3: the symmetry gate
-/

/-- A small asymmetric matrix: entry (1,0) is stored but (0,1) is not. -/
def asymMat : CsMat :=
  { rows := 2, cols := 2, indptr := [0, 1, 1], indices := [1], data := [1] }

/-- C3: for every matrix whose stored upper and lower triangles disagree
(`is_symmetric` fails), `ldl_symbolic` with the symmetry check enabled fails
with the asymmetric-input error (the source's `panic!("Matrix is not
symmetric")`, modelled as `none`) before any factorization work occurs: no
output buffer (`l_colptr`, `parents`, `l_nz`, `flag_workspace`) is produced,
whatever their initial contents and whatever the permutation. -/
theorem ldl_symbolic_asymmetric_fails (m : CsMat) (perm perm_inv : List Nat)
    (l_colptr : List Nat) (s : SymbState) (h : is_symmetric m = false) :
    ldl_symbolic m perm perm_inv l_colptr s SymmetryCheck.CheckSymmetry = none := by
  simp [ldl_symbolic, h]

/-- Witness for C3 at the concrete asymmetric matrix `asymMat`. -/
theorem ldl_symbolic_asymmetric_fails_witness :
    ldl_symbolic asymMat [0, 1] [0, 1] [0, 0, 0]
      { parents := [0, 0], l_nz := [0, 0], flag := [0, 0] }
      SymmetryCheck.CheckSymmetry = none :=
  ldl_symbolic_asymmetric_fails asymMat [0, 1] [0, 1] [0, 0, 0]
    { parents := [0, 0], l_nz := [0, 0], flag := [0, 0] } (by decide)

/-!
## C4: `l_colptr` is the prefix sum of the per-column counts
-/

/-- Sum of the first `k` entries of a `Nat` buffer. -/
def sumTo (l : List Nat) (k : Nat) : Nat :=
  ((List.range k).map (aget l)).sum

theorem sumTo_zero (l : List Nat) : sumTo l 0 = 0 := by
  simp [sumTo]

theorem sumTo_succ (l : List Nat) (k : Nat) :
    sumTo l (k + 1) = sumTo l k + aget l k := by
  simp [sumTo, List.range_succ]

/-- The prefix-sum fold of `buildColptr`: after `m` steps the running total is
`sumTo l_nz m`, positions `< m` hold the partial sums, and positions `≥ m`
are untouched. -/
theorem buildColptr_fold (l_nz cp : List Nat) (m : Nat) :
    ((List.range m).foldl
        (fun (acc : List Nat × Nat) k => (aset acc.1 k acc.2, acc.2 + aget l_nz k))
        (cp, 0)).2 = sumTo l_nz m ∧
    ((List.range m).foldl
        (fun (acc : List Nat × Nat) k => (aset acc.1 k acc.2, acc.2 + aget l_nz k))
        (cp, 0)).1.length = cp.length ∧
    (∀ i, i < m →
      aget ((List.range m).foldl
        (fun (acc : List Nat × Nat) k => (aset acc.1 k acc.2, acc.2 + aget l_nz k))
        (cp, 0)).1 i = if i < cp.length then sumTo l_nz i else 0) ∧
    (∀ i, m ≤ i →
      aget ((List.range m).foldl
        (fun (acc : List Nat × Nat) k => (aset acc.1 k acc.2, acc.2 + aget l_nz k))
        (cp, 0)).1 i = aget cp i) := by
  induction m with
  | zero =>
    exact ⟨sumTo_zero l_nz, rfl, fun i hi => absurd hi (Nat.not_lt_zero i),
      fun i _ => rfl⟩
  | succ m ih =>
    obtain ⟨htot, hlen, hlt, hge⟩ := ih
    rw [List.range_succ, List.foldl_append]
    set F := fun (acc : List Nat × Nat) k => (aset acc.1 k acc.2, acc.2 + aget l_nz k)
    set q := (List.range m).foldl F (cp, 0)
    refine ⟨?_, ?_, ?_, ?_⟩
    · show q.2 + aget l_nz m = sumTo l_nz (m + 1)
      rw [htot, sumTo_succ]
    · show (aset q.1 m q.2).length = cp.length
      rw [length_aset, hlen]
    · intro i hi
      show aget (aset q.1 m q.2) i = _
      rcases Nat.lt_or_ge i m with hlt' | hge'
      · rw [aget_aset_ne _ _ _ _ (Nat.ne_of_gt hlt'), hlt i hlt']
      · have him : i = m := Nat.le_antisymm (Nat.lt_succ_iff.mp hi) hge'
        subst him
        by_cases hcp : i < cp.length
        · rw [aget_aset_eq _ _ _ (by rw [hlen]; exact hcp), htot, if_pos hcp]
        · rw [if_neg hcp]
          have : (aset q.1 i q.2) = q.1 := by
            unfold aset
            exact List.set_eq_of_length_le (by rw [hlen]; omega)
          rw [this]
          exact (hge i (Nat.le_refl i)).trans (aget_oob cp i (by omega))
    · intro i hi
      show aget (aset q.1 m q.2) i = aget cp i
      rw [aget_aset_ne _ _ _ _ (by omega), hge i (by omega)]

/-- Value of `buildColptr` at every position `i ≤ n`, for a buffer of length
`n + 1`. -/
theorem buildColptr_spec (n : Nat) (l_nz cp : List Nat)
    (hlen : cp.length = n + 1) (i : Nat) (hi : i ≤ n) :
    aget (buildColptr n l_nz cp) i = sumTo l_nz i := by
  obtain ⟨htot, hflen, hlt, _⟩ := buildColptr_fold l_nz cp n
  unfold buildColptr
  rcases Nat.lt_or_ge i n with hlt' | hge'
  · rw [aget_aset_ne _ _ _ _ (Nat.ne_of_gt hlt'), hlt i hlt', if_pos (by omega)]
  · have hin : i = n := Nat.le_antisymm hi hge'
    subst hin
    rw [aget_aset_eq _ _ _ (by rw [hflen, hlen]; omega), htot]

/-- C4: after `ldl_symbolic` completes on an n-by-n matrix (with an
`l_colptr` buffer of length `n + 1`, as the interface requires), the returned
`l_colptr` is the prefix sum of the per-column counts: `l_colptr[0] = 0`,
`l_colptr[i+1] = l_colptr[i] + l_nz[i]` for every `i < n`, and `l_colptr[n]`
is the sum of all the `l_nz[i]`, the total factor nonzero count excluding the
diagonal. -/
theorem ldl_symbolic_colptr_prefix (m : CsMat) (perm perm_inv : List Nat)
    (cp : List Nat) (s : SymbState) (check : SymmetryCheck)
    (pr : List Nat × SymbState)
    (h : ldl_symbolic m perm perm_inv cp s check = some pr)
    (hlen : cp.length = m.rows + 1) :
    aget pr.1 0 = 0 ∧
    (∀ i, i < m.rows → aget pr.1 (i + 1) = aget pr.1 i + aget pr.2.l_nz i) ∧
    aget pr.1 m.rows = sumTo pr.2.l_nz m.rows := by
  have hpr : pr = ldl_symbolic_core m.rows (outer_iterator_papt m perm perm_inv) cp s := by
    cases check with
    | DontCheckSymmetry => simpa [ldl_symbolic] using h.symm
    | CheckSymmetry =>
      by_cases hsym : is_symmetric m
      · simpa [ldl_symbolic, hsym] using h.symm
      · simp [ldl_symbolic, hsym] at h
  subst hpr
  unfold ldl_symbolic_core
  refine ⟨?_, ?_, ?_⟩
  · rw [buildColptr_spec m.rows _ cp hlen 0 (Nat.zero_le _), sumTo_zero]
  · intro i hi
    rw [buildColptr_spec m.rows _ cp hlen (i + 1) hi,
      buildColptr_spec m.rows _ cp hlen i (Nat.le_of_lt hi), sumTo_succ]
  · exact buildColptr_spec m.rows _ cp hlen m.rows (Nat.le_refl _)

/-- A small 2×2 symmetric matrix with a dense pattern, for witnesses. -/
def smallMat : CsMat :=
  { rows := 2, cols := 2, indptr := [0, 2, 4], indices := [0, 1, 0, 1],
    data := [2, 1, 1, 2] }

/-- Witness for C4: the prefix-sum identities hold for the concrete symbolic
factorization of `smallMat`. -/
theorem ldl_symbolic_colptr_prefix_witness :
    aget ([0, 1, 1] : List Nat) 0 = 0 ∧
    (∀ i, i < smallMat.rows →
      aget ([0, 1, 1] : List Nat) (i + 1) =
        aget ([0, 1, 1] : List Nat) i + aget ([1, 0] : List Nat) i) ∧
    aget ([0, 1, 1] : List Nat) smallMat.rows = sumTo [1, 0] smallMat.rows :=
  ldl_symbolic_colptr_prefix smallMat [0, 1] [0, 1] [0, 0, 0]
    { parents := [0, 0], l_nz := [0, 0], flag := [0, 0] }
    SymmetryCheck.CheckSymmetry
    ([0, 1, 1], { parents := [1, -1], l_nz := [1, 0], flag := [1, 1] })
    (by decide) (by decide)

/-!
## C7: the symbolic pass uses only the sparsity pattern
-/

/-- Folding a function that only looks at a projection of the elements equals
folding over the projected list. -/
theorem foldl_fst {β : Type} (f : β → Nat → β) (l : List (Nat × ℚ)) (b : β) :
    l.foldl (fun s iv => f s iv.1) b = (l.map Prod.fst).foldl f b := by
  rw [List.foldl_map]

/-- Fold congruence: pointwise equal step functions on the elements of the
list give equal folds. -/
theorem foldl_congr_mem {β : Type} (l : List Nat) (f g : β → Nat → β) (b : β)
    (h : ∀ k ∈ l, ∀ s, f s k = g s k) : l.foldl f b = l.foldl g b := by
  induction l generalizing b with
  | nil => rfl
  | cons a l ih =>
    rw [List.foldl_cons, List.foldl_cons, h a (List.mem_cons_self a l)]
    exact ih (g b a) (fun k hk s => h k (List.mem_cons_of_mem a hk) s)

/-- One symbolic column depends only on the row indices of the column's
stored entries, not on their values. -/
theorem symbolicCol_pattern (n k : Nat) (cols1 cols2 : Nat → List (Nat × ℚ))
    (s : SymbState) (h : (cols1 k).map Prod.fst = (cols2 k).map Prod.fst) :
    symbolicCol n cols1 k s = symbolicCol n cols2 k s := by
  unfold symbolicCol
  rw [foldl_fst (fun s i => if i < k then symbolicWalk k n i s else s) (cols1 k),
    foldl_fst (fun s i => if i < k then symbolicWalk k n i s else s) (cols2 k), h]

/-- The whole symbolic pass depends only on the sparsity pattern of the
column stream. -/
theorem ldl_symbolic_core_pattern (n : Nat) (cols1 cols2 : Nat → List (Nat × ℚ))
    (cp : List Nat) (s : SymbState)
    (h : ∀ k, k < n → (cols1 k).map Prod.fst = (cols2 k).map Prod.fst) :
    ldl_symbolic_core n cols1 cp s = ldl_symbolic_core n cols2 cp s := by
  unfold ldl_symbolic_core
  have : (List.range n).foldl (fun s k => symbolicCol n cols1 k s) s =
      (List.range n).foldl (fun s k => symbolicCol n cols2 k s) s := by
    refine foldl_congr_mem _ _ _ _ (fun k hk s => ?_)
    exact symbolicCol_pattern n k cols1 cols2 s (h k (List.mem_range.mp hk))
  rw [this]

/-- The row indices seen through the permuted column iterator depend only on
the matrix's `indptr`/`indices` pattern, not on its values. -/
theorem outer_iterator_papt_fst (m1 m2 : CsMat) (perm perm_inv : List Nat)
    (hptr : m1.indptr = m2.indptr) (hind : m1.indices = m2.indices) (k : Nat) :
    (outer_iterator_papt m1 perm perm_inv k).map Prod.fst =
      (outer_iterator_papt m2 perm perm_inv k).map Prod.fst := by
  unfold outer_iterator_papt CsMat.col
  simp only [List.map_map, hptr, hind]
  rfl

/-- C7: for a fixed sparsity pattern and permutation, the symbolic
factorization's outputs are identical regardless of the numeric values stored
in the matrix: if two matrices have the same dimension and the same
`indptr`/`indices` pattern (values arbitrary) and both `ldl_symbolic` calls
return, the two runs produce equal `l_colptr` and equal `parents` (indeed
equal entire output states). -/
theorem ldl_symbolic_pattern_determinism (m1 m2 : CsMat)
    (perm perm_inv cp : List Nat) (s : SymbState) (check1 check2 : SymmetryCheck)
    (pr1 pr2 : List Nat × SymbState)
    (hrows : m1.rows = m2.rows) (hptr : m1.indptr = m2.indptr)
    (hind : m1.indices = m2.indices)
    (h1 : ldl_symbolic m1 perm perm_inv cp s check1 = some pr1)
    (h2 : ldl_symbolic m2 perm perm_inv cp s check2 = some pr2) :
    pr1 = pr2 := by
  have hpr1 : pr1 = ldl_symbolic_core m1.rows (outer_iterator_papt m1 perm perm_inv) cp s := by
    cases check1 with
    | DontCheckSymmetry => simpa [ldl_symbolic] using h1.symm
    | CheckSymmetry =>
      by_cases hsym : is_symmetric m1
      · simpa [ldl_symbolic, hsym] using h1.symm
      · simp [ldl_symbolic, hsym] at h1
  have hpr2 : pr2 = ldl_symbolic_core m2.rows (outer_iterator_papt m2 perm perm_inv) cp s := by
    cases check2 with
    | DontCheckSymmetry => simpa [ldl_symbolic] using h2.symm
    | CheckSymmetry =>
      by_cases hsym : is_symmetric m2
      · simpa [ldl_symbolic, hsym] using h2.symm
      · simp [ldl_symbolic, hsym] at h2
  rw [hpr1, hpr2, ← hrows]
  exact ldl_symbolic_core_pattern m1.rows _ _ cp s
    (fun k _ => outer_iterator_papt_fst m1 m2 perm perm_inv hptr hind k)

/-- `smallMat` with the same pattern but different (even asymmetric) values. -/
def smallMatOtherVals : CsMat :=
  { rows := 2, cols := 2, indptr := [0, 2, 4], indices := [0, 1, 0, 1],
    data := [5, 7, 11, 13] }

/-- Witness for C7: the symbolic outputs of `smallMat` and
`smallMatOtherVals` coincide. -/
theorem ldl_symbolic_pattern_determinism_witness :
    (([0, 1, 1] : List Nat), ({ parents := [1, -1], l_nz := [1, 0], flag := [1, 1] } : SymbState)) =
      (([0, 1, 1] : List Nat), ({ parents := [1, -1], l_nz := [1, 0], flag := [1, 1] } : SymbState)) :=
  ldl_symbolic_pattern_determinism smallMat smallMatOtherVals [0, 1] [0, 1]
    [0, 0, 0] { parents := [0, 0], l_nz := [0, 0], flag := [0, 0] }
    SymmetryCheck.CheckSymmetry SymmetryCheck.DontCheckSymmetry _ _
    rfl rfl rfl (by decide) (by decide)

/-!
## C2: the singularity failure, exactly at a zero pivot
-/

theorem ldl_numeric_upto_zero (n : Nat) (parents : List Int) (lp : List Nat)
    (cols : Nat → List (Nat × ℚ)) (s : NumState) :
    ldl_numeric_upto n parents lp cols s 0 = some s := rfl

theorem ldl_numeric_upto_succ (n : Nat) (parents : List Int) (lp : List Nat)
    (cols : Nat → List (Nat × ℚ)) (s : NumState) (m : Nat) :
    ldl_numeric_upto n parents lp cols s (m + 1) =
      (ldl_numeric_upto n parents lp cols s m).bind
        (numericColChecked n parents lp cols m) := by
  unfold ldl_numeric_upto
  rw [List.range_succ, List.foldl_append]
  rfl

theorem ldl_numeric_upto_none_mono (n : Nat) (parents : List Int)
    (lp : List Nat) (cols : Nat → List (Nat × ℚ)) (s : NumState) (m t : Nat)
    (h : ldl_numeric_upto n parents lp cols s m = none) :
    ldl_numeric_upto n parents lp cols s (m + t) = none := by
  induction t with
  | zero => exact h
  | succ t ih => rw [← Nat.add_assoc, ldl_numeric_upto_succ, ih]; rfl

/-- The numeric pass fails within the first `m` columns precisely when some
column `k < m` is reached successfully and its computed `diag[k]` is zero. -/
theorem ldl_numeric_upto_none_iff (n : Nat) (parents : List Int)
    (lp : List Nat) (cols : Nat → List (Nat × ℚ)) (s : NumState) (m : Nat) :
    ldl_numeric_upto n parents lp cols s m = none ↔
      ∃ k, k < m ∧ ∃ s1,
        ldl_numeric_upto n parents lp cols s k = some s1 ∧
        aget (numericCol n k parents lp cols s1).diag k = 0 := by
  induction m with
  | zero =>
    simp [ldl_numeric_upto_zero]
  | succ m ih =>
    rw [ldl_numeric_upto_succ]
    constructor
    · intro h
      cases hm : ldl_numeric_upto n parents lp cols s m with
      | none =>
        obtain ⟨k, hk, s1, hs1, hdiag⟩ := ih.mp hm
        exact ⟨k, Nat.lt_succ_of_lt hk, s1, hs1, hdiag⟩
      | some s1 =>
        rw [hm] at h
        simp only [Option.some_bind] at h
        unfold numericColChecked at h
        by_cases hdiag : aget (numericCol n m parents lp cols s1).diag m = 0
        · exact ⟨m, Nat.lt_succ_self m, s1, hm, hdiag⟩
        · simp [hdiag] at h
    · rintro ⟨k, hk, s1, hs1, hdiag⟩
      rcases Nat.lt_succ_iff_lt_or_eq.mp hk with hk' | hk'
      · rw [ih.mpr ⟨k, hk', s1, hs1, hdiag⟩]; rfl
      · subst hk'
        rw [hs1]
        simp only [Option.some_bind]
        unfold numericColChecked
        simp [hdiag]

/-- C2: `ldl_numeric` fails with the singularity error (the source's
`panic!("Matrix is singular")`, modelled as `none`) if and only if some
column `k` in `0..n-1`, reached successfully, computes a diagonal entry
`diag[k]` that is exactly zero at the end of its elimination; no retry or
perturbation path exists, and on a run in which every reached column's
`diag[k]` is nonzero the factorization completes successfully. -/
theorem ldl_numeric_singular_iff (n : Nat) (parents : List Int)
    (lp : List Nat) (cols : Nat → List (Nat × ℚ)) (s : NumState) :
    (ldl_numeric_core n parents lp cols s = none ↔
      ∃ k, k < n ∧ ∃ s1,
        ldl_numeric_upto n parents lp cols s k = some s1 ∧
        aget (numericCol n k parents lp cols s1).diag k = 0) ∧
    ((∀ k, k < n → ∀ s1, ldl_numeric_upto n parents lp cols s k = some s1 →
        aget (numericCol n k parents lp cols s1).diag k ≠ 0) →
      ∃ t, ldl_numeric_core n parents lp cols s = some t) := by
  constructor
  · exact ldl_numeric_upto_none_iff n parents lp cols s n
  · intro hall
    cases hres : ldl_numeric_core n parents lp cols s with
    | some t => exact ⟨t, rfl⟩
    | none =>
      obtain ⟨k, hk, s1, hs1, hdiag⟩ :=
        (ldl_numeric_upto_none_iff n parents lp cols s n).mp hres
      exact absurd hdiag (hall k hk s1 hs1)

unseal Rat.add Rat.mul Rat.sub Rat.inv in
/-- Witness for C2: on `smallMat` (whose pivots are 2 and 3/2) the numeric
factorization completes; obtained by applying `ldl_numeric_singular_iff` and
discharging its nonzero-pivot hypothesis by computation. -/
theorem ldl_numeric_singular_iff_witness :
    ∃ t, ldl_numeric_core 2 [1, -1] [0, 1, 1]
      (outer_iterator_papt smallMat [0, 1] [0, 1])
      { l_nz := [0, 0], l_indices := [0], l_data := [0], diag := [0, 0],
        y := [0, 0], pattern := [0, 0], flag := [0, 0] } = some t :=
  (ldl_numeric_singular_iff 2 [1, -1] [0, 1, 1]
      (outer_iterator_papt smallMat [0, 1] [0, 1])
      { l_nz := [0, 0], l_indices := [0], l_data := [0], diag := [0, 0],
        y := [0, 0], pattern := [0, 0], flag := [0, 0] }).2
    (by decide)

/-!
## C5: `parents` describes a forest compatible with the elimination order
-/

/-- Generic fold invariant. -/
theorem foldl_inv {β γ : Type _} (P : β → Prop) (f : β → γ → β) (l : List γ)
    (b : β) (hb : P b) (hf : ∀ s a, a ∈ l → P s → P (f s a)) :
    P (l.foldl f b) := by
  induction l generalizing b with
  | nil => exact hb
  | cons a l ih =>
    exact ih (f b a) (hf b a (List.mem_cons_self a l) hb)
      (fun s c hc hs => hf s c (List.mem_cons_of_mem a hc) hs)

/-- Generic invariant for folds over `List.range`. -/
theorem foldl_range_inv {β : Type _} (P : Nat → β → Prop) (f : β → Nat → β)
    (n : Nat) (b : β) (h0 : P 0 b)
    (hstep : ∀ k s, k < n → P k s → P (k + 1) (f s k)) :
    P n ((List.range n).foldl f b) := by
  induction n with
  | zero => exact h0
  | succ n ih =>
    rw [List.range_succ, List.foldl_append]
    exact hstep n _ (Nat.lt_succ_self n)
      (ih (fun k s hk hs => hstep k s (Nat.lt_succ_of_lt hk) hs))

/-- Mid-column invariant of the symbolic pass, while column `k` is being
processed: buffer sizes are stable, node `k` is flagged for itself with no
parent, and every node below `k` either is still a root or has a parent
strictly above it and at most `k`. -/
def SymbMid (n k : Nat) (s : SymbState) : Prop :=
  s.parents.length = n ∧ s.l_nz.length = n ∧ s.flag.length = n ∧
  aget s.flag k = k ∧ aget s.parents k = -1 ∧
  (∀ x, x < k →
    aget s.parents x = -1 ∨
      ((x : Int) < aget s.parents x ∧ aget s.parents x ≤ (k : Int)))

/-- The elimination-tree walk preserves the mid-column invariant, for any
start node `i ≤ k`. -/
theorem symbolicWalk_mid (n k : Nat) (fuel : Nat) (i : Nat) (s : SymbState)
    (hi : i ≤ k) (hs : SymbMid n k s) :
    SymbMid n k (symbolicWalk k fuel i s) := by
  induction fuel generalizing i s with
  | zero => exact hs
  | succ fuel ih =>
    obtain ⟨hp, hn, hf, hfk, hpk, hinv⟩ := hs
    rw [symbolicWalk]
    by_cases hflag : aget s.flag i ≠ k
    · have hik : i ≠ k := fun he => hflag (he ▸ hfk)
      have hiklt : i < k := Nat.lt_of_le_of_ne hi hik
      simp only [if_pos hflag]
      set s1 : SymbState :=
        if aget s.parents i = -1 then
          { s with parents := aset s.parents i (k : Int) }
        else s with hs1
      set s2 : SymbState := { s1 with l_nz := aset s1.l_nz i (aget s1.l_nz i + 1) } with hs2
      set s3 : SymbState := { s2 with flag := aset s2.flag i k } with hs3
      have hs1p : s1.parents = aset s.parents i (k : Int) ∨ s1.parents = s.parents := by
        by_cases hroot : aget s.parents i = -1
        · left; rw [hs1, if_pos hroot]
        · right; rw [hs1, if_neg hroot]
      have hs3p : s3.parents = s1.parents := rfl
      have hs3f : s3.flag = aset s1.flag i k := rfl
      have hs3n : s3.l_nz = aset s1.l_nz i (aget s1.l_nz i + 1) := rfl
      have hs1f : s1.flag = s.flag := by
        rcases hs1p with h1 | h1 <;>
          · by_cases hroot : aget s.parents i = -1 <;> simp [hs1, hroot]
      have hs1n : s1.l_nz = s.l_nz := by
        by_cases hroot : aget s.parents i = -1 <;> simp [hs1, hroot]
      have hmid3 : SymbMid n k s3 := by
        refine ⟨?_, ?_, ?_, ?_, ?_, ?_⟩
        · rcases hs1p with h1 | h1 <;> simp [hs3p, h1, length_aset, hp]
        · simp [hs3n, length_aset, hs1n, hn]
        · simp [hs3f, length_aset, hs1f, hf]
        · rw [hs3f, hs1f, aget_aset_ne _ _ _ _ hik]; exact hfk
        · rcases hs1p with h1 | h1
          · rw [hs3p, h1, aget_aset_ne _ _ _ _ hik]; exact hpk
          · rw [hs3p, h1]; exact hpk
        · intro x hx
          rcases hs1p with h1 | h1
          · by_cases hxi : i = x
            · subst hxi
              by_cases hil : i < s.parents.length
              · right
                rw [hs3p, h1, aget_aset_eq _ _ _ hil]
                exact ⟨by exact_mod_cast hiklt, by exact_mod_cast Nat.le_refl k⟩
              · rw [hs3p, h1]
                unfold aset
                rw [List.set_eq_of_length_le (Nat.le_of_not_lt hil)]
                exact hinv i hx
            · rw [hs3p, h1, aget_aset_ne _ _ _ _ hxi]
              exact hinv x hx
          · rw [hs3p, h1]; exact hinv x hx
      -- the next node of the walk is at most k
      have hnext : (aget s3.parents i).toNat ≤ k := by
        rcases hs1p with h1 | h1
        · by_cases hil : i < s.parents.length
          · rw [hs3p, h1, aget_aset_eq _ _ _ hil]; simp
          · rw [hs3p, h1]
            unfold aset
            rw [List.set_eq_of_length_le (Nat.le_of_not_lt hil)]
            rcases hinv i hiklt with hr | ⟨_, hub⟩
            · simp [hr]
            · omega
        · rw [hs3p, h1]
          rcases hinv i hiklt with hr | ⟨_, hub⟩
          · simp [hr]
          · omega
      exact ih _ _ hnext hmid3
    · simp only [if_neg hflag]
      exact ⟨hp, hn, hf, hfk, hpk, hinv⟩

/-- Whole-run invariant of the symbolic pass after the first `k` columns:
buffer sizes are stable and every node below `k` is a root or has a parent
strictly above it and strictly below `k`. -/
def SymbInv (n k : Nat) (s : SymbState) : Prop :=
  s.parents.length = n ∧ s.l_nz.length = n ∧ s.flag.length = n ∧
  (∀ x, x < k →
    aget s.parents x = -1 ∨
      ((x : Int) < aget s.parents x ∧ aget s.parents x < (k : Int)))

/-- One symbolic column advances the whole-run invariant. -/
theorem symbolicCol_inv (n : Nat) (cols : Nat → List (Nat × ℚ)) (k : Nat)
    (s : SymbState) (hk : k < n) (hs : SymbInv n k s) :
    SymbInv n (k + 1) (symbolicCol n cols k s) := by
  obtain ⟨hp, hn, hf, hinv⟩ := hs
  have hdef : symbolicCol n cols k s =
      (cols k).foldl (fun s iv => if iv.1 < k then symbolicWalk k n iv.1 s else s)
        { parents := aset s.parents k (-1)
          l_nz := aset s.l_nz k 0
          flag := aset s.flag k k } := rfl
  rw [hdef]
  set s0 : SymbState :=
    { parents := aset s.parents k (-1)
      l_nz := aset s.l_nz k 0
      flag := aset s.flag k k } with hs0
  have hmid0 : SymbMid n k s0 := by
    refine ⟨by simp [hs0, length_aset, hp], by simp [hs0, length_aset, hn],
      by simp [hs0, length_aset, hf], ?_, ?_, ?_⟩
    · exact aget_aset_eq _ _ _ (by rw [hf]; exact hk)
    · exact aget_aset_eq _ _ _ (by rw [hp]; exact hk)
    · intro x hx
      show aget (aset s.parents k (-1)) x = -1 ∨ _
      rw [aget_aset_ne _ _ _ _ (Nat.ne_of_gt hx)]
      rcases hinv x hx with hr | ⟨hlb, hub⟩
      · exact Or.inl hr
      · exact Or.inr ⟨hlb, Int.le_of_lt hub⟩
  have hmid : SymbMid n k ((cols k).foldl
      (fun s iv => if iv.1 < k then symbolicWalk k n iv.1 s else s) s0) := by
    refine foldl_inv (SymbMid n k) _ (cols k) s0 hmid0 (fun s iv _ hsm => ?_)
    by_cases hik : iv.1 < k
    · rw [if_pos hik]
      exact symbolicWalk_mid n k n iv.1 s (Nat.le_of_lt hik) hsm
    · rw [if_neg hik]; exact hsm
  obtain ⟨hp', hn', hf', hfk', hpk', hinv'⟩ := hmid
  refine ⟨hp', hn', hf', fun x hx => ?_⟩
  rcases Nat.lt_succ_iff_lt_or_eq.mp hx with hx' | hx'
  · rcases hinv' x hx' with hr | ⟨hlb, hub⟩
    · exact Or.inl hr
    · exact Or.inr ⟨hlb, by omega⟩
  · subst hx'; exact Or.inl hpk'

/-- C5: after `ldl_symbolic` completes on an n-by-n matrix (with buffers of
length `n`), the `parents` array describes a forest compatible with the
elimination order: every `parents[i]` is either the root sentinel `-1` or a
column index strictly greater than `i` (and strictly below `n`), so that
repeatedly following `parents` from any node strictly increases the index
until a root is reached. -/
theorem ldl_symbolic_parents_forest (m : CsMat) (perm perm_inv : List Nat)
    (cp : List Nat) (s : SymbState) (check : SymmetryCheck)
    (pr : List Nat × SymbState)
    (h : ldl_symbolic m perm perm_inv cp s check = some pr)
    (hp : s.parents.length = m.rows) (hn : s.l_nz.length = m.rows)
    (hf : s.flag.length = m.rows) :
    ∀ i, i < m.rows →
      aget pr.2.parents i = -1 ∨
        ((i : Int) < aget pr.2.parents i ∧ aget pr.2.parents i < (m.rows : Int)) := by
  have hpr : pr = ldl_symbolic_core m.rows (outer_iterator_papt m perm perm_inv) cp s := by
    cases check with
    | DontCheckSymmetry => simpa [ldl_symbolic] using h.symm
    | CheckSymmetry =>
      by_cases hsym : is_symmetric m
      · simpa [ldl_symbolic, hsym] using h.symm
      · simp [ldl_symbolic, hsym] at h
  subst hpr
  have hrun : SymbInv m.rows m.rows
      ((List.range m.rows).foldl
        (fun s k => symbolicCol m.rows (outer_iterator_papt m perm perm_inv) k s) s) := by
    refine foldl_range_inv (SymbInv m.rows) _ m.rows s
      ⟨hp, hn, hf, fun x hx => absurd hx (Nat.not_lt_zero x)⟩
      (fun k s hk hs => symbolicCol_inv m.rows _ k s hk hs)
  exact hrun.2.2.2

/-- Witness for C5 at the concrete factorization of `smallMat`, node 0. -/
theorem ldl_symbolic_parents_forest_witness :
    aget (([1, -1] : List Int)) 0 = -1 ∨
      ((0 : Int) < aget (([1, -1] : List Int)) 0 ∧
        aget (([1, -1] : List Int)) 0 < (smallMat.rows : Int)) :=
  ldl_symbolic_parents_forest smallMat [0, 1] [0, 1] [0, 0, 0]
    { parents := [0, 0], l_nz := [0, 0], flag := [0, 0] }
    SymmetryCheck.CheckSymmetry
    ([0, 1, 1], { parents := [1, -1], l_nz := [1, 0], flag := [1, 1] })
    (by decide) rfl rfl rfl 0 (by decide)

/-!
## C9: the backward solve solves `Lᵗ x = y`
-/

/-- Congruence for sums of mapped lists. -/
theorem map_sum_congr (ps : List Nat) (f g : Nat → ℚ)
    (h : ∀ p ∈ ps, f p = g p) : (ps.map f).sum = (ps.map g).sum := by
  induction ps with
  | nil => rfl
  | cons p ps ih =>
    simp only [List.map_cons, List.sum_cons, h p (List.mem_cons_self p ps)]
    rw [ih (fun q hq => h q (List.mem_cons_of_mem p hq))]

/-- One column update of `ldl_ltsolve` (its inner entry loop). -/
def ltsolveCol (lp li : List Nat) (ld : List ℚ) (c : Nat) (x : List ℚ) :
    List ℚ :=
  (List.range' (aget lp c) (aget lp (c + 1) - aget lp c)).foldl
    (fun x p => aset x c (aget x c - aget ld p * aget x (aget li p))) x

theorem ldl_ltsolve_eq_cols (lp li : List Nat) (ld x : List ℚ) :
    ldl_ltsolve lp li ld x =
      ((List.range (lp.length - 1)).reverse).foldl
        (fun x c => ltsolveCol lp li ld c x) x := rfl

theorem ltsolveCol_length (lp li : List Nat) (ld : List ℚ) (c : Nat)
    (x : List ℚ) : (ltsolveCol lp li ld c x).length = x.length := by
  unfold ltsolveCol
  refine foldl_inv (fun z => z.length = x.length) _ _ x rfl (fun z p _ hz => ?_)
  show (aset z c (aget z c - aget ld p * aget z (aget li p))).length = x.length
  rw [length_aset]; exact hz

theorem ltsolveCol_frame (lp li : List Nat) (ld : List ℚ) (c : Nat)
    (x : List ℚ) (j : Nat) (hj : j ≠ c) :
    aget (ltsolveCol lp li ld c x) j = aget x j := by
  unfold ltsolveCol
  refine foldl_inv (fun z => aget z j = aget x j) _ _ x rfl (fun z p _ hz => ?_)
  show aget (aset z c (aget z c - aget ld p * aget z (aget li p))) j = aget x j
  rw [aget_aset_ne _ _ _ _ (fun he => hj he.symm)]; exact hz

/-- Closed form of the sequential column update when (as for a valid factor)
no stored row of the column equals the column index itself. -/
theorem ltsolve_fold_closed (li : List Nat) (ld : List ℚ) (c : Nat)
    (ps : List Nat) (x : List ℚ) (hc : c < x.length)
    (hne : ∀ p ∈ ps, aget li p ≠ c) :
    aget (ps.foldl
        (fun x p => aset x c (aget x c - aget ld p * aget x (aget li p))) x) c =
      aget x c - (ps.map (fun p => aget ld p * aget x (aget li p))).sum := by
  induction ps generalizing x with
  | nil => simp
  | cons p ps ih =>
    rw [List.foldl_cons]
    set x1 := aset x c (aget x c - aget ld p * aget x (aget li p)) with hx1
    have hc1 : c < x1.length := by rw [hx1, length_aset]; exact hc
    rw [ih x1 hc1 (fun q hq => hne q (List.mem_cons_of_mem p hq))]
    have hx1c : aget x1 c = aget x c - aget ld p * aget x (aget li p) :=
      aget_aset_eq _ _ _ hc
    have hmap : (ps.map (fun q => aget ld q * aget x1 (aget li q))).sum =
        (ps.map (fun q => aget ld q * aget x (aget li q))).sum := by
      refine map_sum_congr ps _ _ (fun q hq => ?_)
      rw [hx1, aget_aset_ne _ _ _ _
        (fun he => hne q (List.mem_cons_of_mem p hq) he.symm)]
    rw [hx1c, hmap]
    simp only [List.map_cons, List.sum_cons]
    ring

/-- The main downward induction for the backward solve: after processing
columns `m-1, …, 0`, positions `≥ m` are untouched and every processed
column `c < m` satisfies its row of the `Lᵗ`-system. -/
theorem ltsolve_aux (lp li : List Nat) (ld : List ℚ) (n : Nat)
    (hn : n = lp.length - 1)
    (hrows : ∀ c, c < n →
      ∀ p ∈ List.range' (aget lp c) (aget lp (c + 1) - aget lp c),
        c < aget li p ∧ aget li p < n)
    (m : Nat) (hm : m ≤ n) (x : List ℚ) (hx : x.length = n) :
    (((List.range m).reverse).foldl (fun x c => ltsolveCol lp li ld c x) x).length = n ∧
    (∀ j, m ≤ j →
      aget (((List.range m).reverse).foldl (fun x c => ltsolveCol lp li ld c x) x) j =
        aget x j) ∧
    (∀ c, c < m →
      aget (((List.range m).reverse).foldl (fun x c => ltsolveCol lp li ld c x) x) c +
        ((List.range' (aget lp c) (aget lp (c + 1) - aget lp c)).map
          (fun p => aget ld p *
            aget (((List.range m).reverse).foldl (fun x c => ltsolveCol lp li ld c x) x)
              (aget li p))).sum =
        aget x c) := by
  induction m generalizing x with
  | zero =>
    exact ⟨hx, fun j _ => rfl, fun c hc => absurd hc (Nat.not_lt_zero c)⟩
  | succ m ih =>
    have hrec : ((List.range (m + 1)).reverse) = m :: (List.range m).reverse := by
      rw [List.range_succ, List.reverse_append]
      rfl
    rw [hrec]
    simp only [List.foldl_cons]
    set x1 := ltsolveCol lp li ld m x with hx1
    have hx1len : x1.length = n := by rw [hx1, ltsolveCol_length, hx]
    obtain ⟨ihlen, ihframe, ihrow⟩ := ih (Nat.le_of_succ_le hm) x1 hx1len
    refine ⟨ihlen, ?_, ?_⟩
    · intro j hj
      rw [ihframe j (Nat.le_of_succ_le hj),
        hx1, ltsolveCol_frame _ _ _ _ _ _ (by omega)]
    · intro c hc
      rcases Nat.lt_succ_iff_lt_or_eq.mp hc with hc' | hc'
      · rw [ihrow c hc', hx1, ltsolveCol_frame _ _ _ _ _ _ (by omega)]
      · subst hc'
        have hm' : c < n := Nat.lt_of_lt_of_le (Nat.lt_succ_self c) hm
        have hget1 : aget (((List.range c).reverse).foldl
            (fun x c => ltsolveCol lp li ld c x) x1) c = aget x1 c :=
          ihframe c (Nat.le_refl c)
        have hclosed : aget x1 c =
            aget x c - ((List.range' (aget lp c) (aget lp (c + 1) - aget lp c)).map
              (fun p => aget ld p * aget x (aget li p))).sum := by
          rw [hx1]
          unfold ltsolveCol
          exact ltsolve_fold_closed li ld c _ x (by omega)
            (fun p hp => Nat.ne_of_gt (hrows c hm' p hp).1)
        have hmap : ((List.range' (aget lp c) (aget lp (c + 1) - aget lp c)).map
            (fun p => aget ld p *
              aget (((List.range c).reverse).foldl
                (fun x c => ltsolveCol lp li ld c x) x1) (aget li p))).sum =
            ((List.range' (aget lp c) (aget lp (c + 1) - aget lp c)).map
              (fun p => aget ld p * aget x (aget li p))).sum := by
          refine map_sum_congr _ _ _ (fun p hp => ?_)
          have hpl := (hrows c hm' p hp).1
          rw [ihframe (aget li p) (Nat.le_of_lt hpl),
            hx1, ltsolveCol_frame _ _ _ _ _ _ (Nat.ne_of_gt hpl)]
        rw [hget1, hclosed, hmap]
        ring

/-- C9: `ldl_ltsolve` iterates the factor columns in strictly decreasing
index order (made explicit by `ldl_ltsolve_eq_cols`), subtracting
`value * x[row]` from `x[column]` for every stored entry of the column; on a
valid unit-lower-triangular factor (every stored row index strictly between
its column index and n) it transforms `x` from `y` into the solution of
`Lᵗ x = y`: for every column `c`, the `c`-th row of `Lᵗ` applied to the
result — its unit diagonal plus the stored entries of factor column `c` —
reproduces `y[c]`. -/
theorem ldl_ltsolve_transpose_solve (lp li : List Nat) (ld x : List ℚ)
    (hx : x.length = lp.length - 1)
    (hrows : ∀ c, c < lp.length - 1 →
      ∀ p ∈ List.range' (aget lp c) (aget lp (c + 1) - aget lp c),
        c < aget li p ∧ aget li p < lp.length - 1) :
    ∀ c, c < lp.length - 1 →
      aget (ldl_ltsolve lp li ld x) c +
        ((List.range' (aget lp c) (aget lp (c + 1) - aget lp c)).map
          (fun p => aget ld p * aget (ldl_ltsolve lp li ld x) (aget li p))).sum =
      aget x c := by
  intro c hc
  rw [ldl_ltsolve_eq_cols]
  exact (ltsolve_aux lp li ld (lp.length - 1) rfl hrows (lp.length - 1)
    (Nat.le_refl _) x hx).2.2 c hc

unseal Rat.add Rat.mul Rat.sub Rat.inv in
/-- Witness for C9 on a concrete 2×2 unit-lower-triangular factor. -/
theorem ldl_ltsolve_transpose_solve_witness :
    aget (ldl_ltsolve [0, 1, 1] [1] [1/2] [3, 4]) 0 +
      ((List.range' (aget ([0, 1, 1] : List Nat) 0)
          (aget ([0, 1, 1] : List Nat) 1 - aget ([0, 1, 1] : List Nat) 0)).map
        (fun p => aget ([1/2] : List ℚ) p *
          aget (ldl_ltsolve [0, 1, 1] [1] [1/2] [3, 4]) (aget ([1] : List Nat) p))).sum =
      aget ([3, 4] : List ℚ) 0 :=
  ldl_ltsolve_transpose_solve [0, 1, 1] [1] [1/2] [3, 4] rfl (by decide) 0
    (by decide)

/-!
## Shared infrastructure for the numeric walk (C6, C8)

`chainOk` certifies that following `parents` from `i` climbs strictly up to
`k` (as the elimination tree built by `ldl_symbolic` guarantees for every
stored entry); `walkChain` is the list of nodes the source's walk collects,
computed against a frozen `flag` buffer; `writeSeq`/`setAll` describe the
walk's buffer updates.
-/

def parentIter (parents : List Int) : Nat → Nat → Nat
  | 0, i => i
  | m + 1, i => parentIter parents m ((aget parents i).toNat)

def chainOk (parents : List Int) (k : Nat) : Nat → Nat → Bool
  | 0, _ => false
  | fuel + 1, i =>
    if i = k then true
    else
      decide (i < k) && decide (i < (aget parents i).toNat) &&
        decide ((aget parents i).toNat ≤ k) &&
        chainOk parents k fuel ((aget parents i).toNat)

def walkChain (parents : List Int) (k : Nat) (flag : List Nat) :
    Nat → Nat → List Nat
  | 0, _ => []
  | fuel + 1, i =>
    if aget flag i ≠ k then
      i :: walkChain parents k flag fuel ((aget parents i).toNat)
    else []

/-- Write the elements of `cl` into consecutive positions of `pattern`
starting at `start`. -/
def writeSeq (pattern : List Nat) (start : Nat) : List Nat → List Nat
  | [] => pattern
  | c :: cl => writeSeq (aset pattern start c) (start + 1) cl

/-- Set `flag[x] := k` for every `x` in `cl`. -/
def setAll (flag : List Nat) (k : Nat) (cl : List Nat) : List Nat :=
  cl.foldl (fun f x => aset f x k) flag

theorem setAll_nil (flag : List Nat) (k : Nat) : setAll flag k [] = flag := rfl

theorem setAll_cons (flag : List Nat) (k : Nat) (c : Nat) (cl : List Nat) :
    setAll flag k (c :: cl) = setAll (aset flag c k) k cl := rfl

/-- Every node of a `chainOk` chain prefix collected by `walkChain` is
strictly below `k`, has its parent strictly above itself and at most `k`,
and is unflagged. -/
theorem walkChain_elem (parents : List Int) (k : Nat) (flag : List Nat)
    (hfk : aget flag k = k) (fuel i : Nat)
    (hok : chainOk parents k fuel i = true) :
    ∀ x ∈ walkChain parents k flag fuel i,
      x < k ∧ x < (aget parents x).toNat ∧ (aget parents x).toNat ≤ k ∧
        aget flag x ≠ k := by
  induction fuel generalizing i with
  | zero => intro x hx; simp [walkChain] at hx
  | succ fuel ih =>
    intro x hx
    rw [walkChain] at hx
    by_cases hflag : aget flag i ≠ k
    · rw [if_pos hflag] at hx
      have hik : i ≠ k := fun he => hflag (he ▸ hfk)
      rw [chainOk, if_neg hik] at hok
      simp only [Bool.and_eq_true, decide_eq_true_eq] at hok
      obtain ⟨⟨⟨h1, h2⟩, h3⟩, h4⟩ := hok
      rcases List.mem_cons.mp hx with he | hm
      · subst he; exact ⟨h1, h2, h3, hflag⟩
      · exact ih _ h4 x hm
    · rw [if_neg hflag] at hx
      simp at hx

theorem chainOk_le (parents : List Int) (k fuel i : Nat)
    (hok : chainOk parents k fuel i = true) : i ≤ k := by
  cases fuel with
  | zero => simp [chainOk] at hok
  | succ fuel =>
    by_cases hik : i = k
    · exact hik.le
    · rw [chainOk, if_neg hik] at hok
      simp only [Bool.and_eq_true, decide_eq_true_eq] at hok
      exact Nat.le_of_lt hok.1.1.1

/-- `walkChain` only depends on the flags of nodes in `[i, k]`. -/
theorem walkChain_congr (parents : List Int) (k : Nat) (flag1 flag2 : List Nat)
    (hfk1 : aget flag1 k = k) (fuel i : Nat)
    (hok : chainOk parents k fuel i = true)
    (hagree : ∀ x, i ≤ x → x ≤ k → aget flag1 x = aget flag2 x) :
    walkChain parents k flag1 fuel i = walkChain parents k flag2 fuel i := by
  induction fuel generalizing i with
  | zero => rfl
  | succ fuel ih =>
    have hi : aget flag1 i = aget flag2 i :=
      hagree i (Nat.le_refl i) (chainOk_le parents k (fuel + 1) i hok)
    rw [walkChain, walkChain, ← hi]
    by_cases hflag : aget flag1 i ≠ k
    · have hik : i ≠ k := fun he => hflag (he ▸ hfk1)
      rw [if_pos hflag, if_pos hflag]
      rw [chainOk, if_neg hik] at hok
      simp only [Bool.and_eq_true, decide_eq_true_eq] at hok
      obtain ⟨⟨⟨_, h2⟩, _⟩, h4⟩ := hok
      rw [ih _ h4 (fun x hx1 hx2 => hagree x (by omega) hx2)]
    · rw [if_neg hflag, if_neg hflag]

/-- The numeric walk (lines 111–116) in closed form: starting from a node
with a valid chain to `k`, it appends the frozen-flag chain prefix
`walkChain` to the front of `pattern_workspace`, advances `len` by its
length, and flags exactly its nodes. -/
theorem numericWalk_spec (k : Nat) (parents : List Int) (fuel i len : Nat)
    (pattern flag : List Nat) (hfk : aget flag k = k)
    (hok : chainOk parents k fuel i = true) :
    numericWalk k parents fuel i len pattern flag =
      (len + (walkChain parents k flag fuel i).length,
       writeSeq pattern len (walkChain parents k flag fuel i),
       setAll flag k (walkChain parents k flag fuel i)) := by
  induction fuel generalizing i len pattern flag with
  | zero => simp [chainOk] at hok
  | succ fuel ih =>
    rw [numericWalk, walkChain]
    by_cases hflag : aget flag i ≠ k
    · have hik : i ≠ k := fun he => hflag (he ▸ hfk)
      rw [if_pos hflag, if_pos hflag]
      rw [chainOk, if_neg hik] at hok
      simp only [Bool.and_eq_true, decide_eq_true_eq] at hok
      obtain ⟨⟨⟨h1, h2⟩, h3⟩, h4⟩ := hok
      have hfk' : aget (aset flag i k) k = k := by
        rw [aget_aset_ne _ _ _ _ hik]; exact hfk
      rw [ih _ (len + 1) (aset pattern len i) (aset flag i k) hfk' h4]
      have hcl : walkChain parents k (aset flag i k) fuel ((aget parents i).toNat) =
          walkChain parents k flag fuel ((aget parents i).toNat) := by
        refine walkChain_congr parents k _ _ hfk' fuel _ h4 (fun x hx1 hx2 => ?_)
        rw [aget_aset_ne _ _ _ _ (by omega)]
      rw [hcl]
      refine Prod.ext ?_ (Prod.ext rfl ?_)
      · show len + 1 + _ = len + (_ + 1)
        omega
      · show setAll (aset flag i k) k _ = setAll flag k (_ :: _)
        rw [setAll_cons]
    · rw [if_neg hflag, if_neg hflag]
      exact Prod.ext (by simp) (Prod.ext rfl rfl)

theorem walkChain_nil_flag (parents : List Int) (k : Nat) (flag : List Nat)
    (fuel i : Nat) (hok : chainOk parents k fuel i = true)
    (hnil : walkChain parents k flag fuel i = []) : aget flag i = k := by
  cases fuel with
  | zero => simp [chainOk] at hok
  | succ fuel =>
    rw [walkChain] at hnil
    by_cases hflag : aget flag i ≠ k
    · rw [if_pos hflag] at hnil; simp at hnil
    · exact Decidable.not_not.mp hflag

theorem walkChain_cons_head (parents : List Int) (k : Nat) (flag : List Nat)
    (fuel i : Nat) (c : Nat) (cl : List Nat)
    (hcl : walkChain parents k flag fuel i = c :: cl) : c = i := by
  cases fuel with
  | zero => simp [walkChain] at hcl
  | succ fuel =>
    rw [walkChain] at hcl
    by_cases hflag : aget flag i ≠ k
    · rw [if_pos hflag] at hcl
      exact (List.cons.injEq _ _ _ _ ▸ hcl).1.symm
    · rw [if_neg hflag] at hcl
      simp at hcl

/-- The `j`-th collected node is the `j`-th iterated parent of the start. -/
theorem walkChain_get (parents : List Int) (k : Nat) (flag : List Nat)
    (fuel i : Nat) :
    ∀ j, j < (walkChain parents k flag fuel i).length →
      aget (walkChain parents k flag fuel i) j = parentIter parents j i := by
  induction fuel generalizing i with
  | zero => intro j hj; simp [walkChain] at hj
  | succ fuel ih =>
    intro j hj
    rw [walkChain] at hj ⊢
    by_cases hflag : aget flag i ≠ k
    · rw [if_pos hflag] at hj ⊢
      cases j with
      | zero => rfl
      | succ j =>
        simp only [List.length_cons, Nat.succ_lt_succ_iff] at hj
        show aget (walkChain parents k flag fuel ((aget parents i).toNat)) j = _
        rw [ih _ j hj]
        rfl
    · rw [if_neg hflag] at hj
      simp at hj

/-- Each collected node is followed in the chain either by its parent (still
inside the collected list) or, if it is the last one, its parent is flagged
for `k`. -/
theorem walkChain_links (parents : List Int) (k : Nat) (flag : List Nat)
    (hfk : aget flag k = k) (fuel i : Nat)
    (hok : chainOk parents k fuel i = true) :
    ∀ j, j < (walkChain parents k flag fuel i).length →
      (j + 1 < (walkChain parents k flag fuel i).length ∧
        aget (walkChain parents k flag fuel i) (j + 1) =
          (aget parents (aget (walkChain parents k flag fuel i) j)).toNat) ∨
      (j + 1 = (walkChain parents k flag fuel i).length ∧
        aget flag
          ((aget parents (aget (walkChain parents k flag fuel i) j)).toNat) = k) := by
  induction fuel generalizing i with
  | zero => intro j hj; simp [walkChain] at hj
  | succ fuel ih =>
    intro j hj
    rw [walkChain] at hj ⊢
    by_cases hflag : aget flag i ≠ k
    · have hik : i ≠ k := fun he => hflag (he ▸ hfk)
      rw [chainOk, if_neg hik] at hok
      simp only [Bool.and_eq_true, decide_eq_true_eq] at hok
      obtain ⟨⟨⟨h1, h2⟩, h3⟩, h4⟩ := hok
      rw [if_pos hflag] at hj ⊢
      cases j with
      | zero =>
        cases hcl : walkChain parents k flag fuel ((aget parents i).toNat) with
        | nil =>
          right
          refine ⟨rfl, ?_⟩
          show aget flag ((aget parents (aget (i :: ([] : List Nat)) 0)).toNat) = k
          have h0 : aget (i :: ([] : List Nat)) 0 = i := rfl
          rw [h0]
          exact walkChain_nil_flag parents k flag fuel _ h4 hcl
        | cons c cl =>
          left
          refine ⟨by simp, ?_⟩
          show aget (i :: c :: cl) 1 = (aget parents (aget (i :: c :: cl) 0)).toNat
          have h0 : aget (i :: c :: cl) 0 = i := rfl
          have h1x : aget (i :: c :: cl) 1 = c := rfl
          rw [h0, h1x]
          exact walkChain_cons_head parents k flag fuel _ c cl hcl
      | succ j =>
        simp only [List.length_cons, Nat.succ_lt_succ_iff] at hj
        have hgs : ∀ t, aget ((i : Nat) :: walkChain parents k flag fuel ((aget parents i).toNat)) (t + 1) =
            aget (walkChain parents k flag fuel ((aget parents i).toNat)) t := fun t => rfl
        rcases ih _ h4 j hj with ⟨hlt, hget⟩ | ⟨heq, hflag'⟩
        · left
          refine ⟨by simpa using Nat.succ_lt_succ hlt, ?_⟩
          rw [hgs, hgs, hget]
        · right
          refine ⟨by simpa using congrArg Nat.succ heq, ?_⟩
          rw [hgs]
          exact hflag'
    · rw [if_neg hflag] at hj
      simp at hj

/-- If the whole parent path from `i` to `parentIter m i` is unflagged, the
walk collects `parentIter m i`. -/
theorem walkChain_cover (parents : List Int) (k : Nat) (flag : List Nat)
    (hfk : aget flag k = k) (fuel i : Nat)
    (hok : chainOk parents k fuel i = true) :
    ∀ m, (∀ j, j ≤ m → aget flag (parentIter parents j i) ≠ k) →
      parentIter parents m i ∈ walkChain parents k flag fuel i := by
  induction fuel generalizing i with
  | zero => simp [chainOk] at hok
  | succ fuel ih =>
    intro m hm
    have hflag : aget flag i ≠ k := hm 0 (Nat.zero_le m)
    have hik : i ≠ k := fun he => hflag (he ▸ hfk)
    rw [chainOk, if_neg hik] at hok
    simp only [Bool.and_eq_true, decide_eq_true_eq] at hok
    obtain ⟨⟨⟨h1, h2⟩, h3⟩, h4⟩ := hok
    rw [walkChain, if_pos hflag]
    cases m with
    | zero => exact List.mem_cons_self i _
    | succ m =>
      refine List.mem_cons_of_mem i ?_
      exact ih _ h4 m (fun j hj => hm (j + 1) (Nat.succ_le_succ hj))

theorem aget_eq_getElem {α : Type} [OfNat α 0] (l : List α) (j : Nat)
    (h : j < l.length) : aget l j = l[j] := by
  simp [aget, List.getD, List.getElem?_eq_getElem h]

/-- A list whose consecutive entries strictly increase is strictly monotone
in its indices. -/
theorem aget_mono_of_consec (l : List Nat)
    (h : ∀ j, j + 1 < l.length → aget l j < aget l (j + 1)) :
    ∀ j1 j2, j1 < j2 → j2 < l.length → aget l j1 < aget l j2 := by
  intro j1 j2
  induction j2 with
  | zero => intro h1 _; exact absurd h1 (Nat.not_lt_zero j1)
  | succ j2 ih =>
    intro h1 h2
    rcases Nat.lt_succ_iff_lt_or_eq.mp h1 with h1' | h1'
    · exact Nat.lt_trans (ih h1' (by omega)) (h j2 h2)
    · subst h1'; exact h j1 h2

theorem walkChain_nodup (parents : List Int) (k : Nat) (flag : List Nat)
    (hfk : aget flag k = k) (fuel i : Nat)
    (hok : chainOk parents k fuel i = true) :
    (walkChain parents k flag fuel i).Nodup := by
  set cl := walkChain parents k flag fuel i with hcl
  have hconsec : ∀ j, j + 1 < cl.length → aget cl j < aget cl (j + 1) := by
    intro j hj
    have hjlt : j < cl.length := Nat.lt_of_succ_lt hj
    have hmem : aget cl j ∈ cl := by
      rw [aget_eq_getElem cl j hjlt]
      exact List.getElem_mem hjlt
    have helem := walkChain_elem parents k flag hfk fuel i hok _ hmem
    rcases walkChain_links parents k flag hfk fuel i hok j hjlt with
      ⟨_, hget⟩ | ⟨heq, _⟩
    · rw [← hcl] at hget
      rw [hget]
      exact helem.2.1
    · rw [← hcl] at heq
      omega
  rw [List.nodup_iff_getElem?_ne_getElem?]
  intro j1 j2 hlt h2
  have := aget_mono_of_consec cl hconsec j1 j2 hlt h2
  rw [aget_eq_getElem cl j1 (Nat.lt_trans hlt h2), aget_eq_getElem cl j2 h2] at this
  rw [List.getElem?_eq_getElem (Nat.lt_trans hlt h2), List.getElem?_eq_getElem h2]
  intro hcon
  rw [Option.some.injEq] at hcon
  omega

/-- `writeSeq` spec: length preserved, untouched outside the written window,
and within the window (when it fits in the buffer) the written values. -/
theorem writeSeq_spec (cl : List Nat) (pattern : List Nat) (start : Nat) :
    (writeSeq pattern start cl).length = pattern.length ∧
    (∀ j, (j < start ∨ start + cl.length ≤ j) →
      aget (writeSeq pattern start cl) j = aget pattern j) ∧
    (start + cl.length ≤ pattern.length →
      ∀ j, j < cl.length → aget (writeSeq pattern start cl) (start + j) = aget cl j) := by
  induction cl generalizing pattern start with
  | nil =>
    exact ⟨rfl, fun j _ => rfl, fun _ j hj => absurd hj (Nat.not_lt_zero j)⟩
  | cons c cl ih =>
    obtain ⟨ihlen, ihframe, ihwin⟩ := ih (aset pattern start c) (start + 1)
    refine ⟨by rw [show writeSeq pattern start (c :: cl) =
        writeSeq (aset pattern start c) (start + 1) cl from rfl, ihlen, length_aset], ?_, ?_⟩
    · intro j hj
      have hj' : j < start ∨ start + 1 + cl.length ≤ j := by
        simp only [List.length_cons] at hj; omega
      show aget (writeSeq (aset pattern start c) (start + 1) cl) j = aget pattern j
      rw [ihframe j (by omega), aget_aset_ne _ _ _ _ (by omega)]
    · intro hfit j hj
      simp only [List.length_cons] at hfit
      cases j with
      | zero =>
        show aget (writeSeq (aset pattern start c) (start + 1) cl) start = c
        rw [ihframe start (Or.inl (Nat.lt_succ_self start)),
          aget_aset_eq _ _ _ (by omega)]
      | succ j =>
        simp only [List.length_cons, Nat.succ_lt_succ_iff] at hj
        show aget (writeSeq (aset pattern start c) (start + 1) cl) (start + (j + 1)) =
          aget (c :: cl) (j + 1)
        have harith : start + (j + 1) = (start + 1) + j := by omega
        rw [harith, ihwin (by rw [length_aset]; omega) j hj]
        rfl

theorem setAll_length (flag : List Nat) (k : Nat) (cl : List Nat) :
    (setAll flag k cl).length = flag.length := by
  induction cl generalizing flag with
  | nil => rfl
  | cons c cl ih => rw [setAll_cons, ih, length_aset]

theorem aget_setAll_not_mem (flag : List Nat) (k : Nat) (cl : List Nat)
    (x : Nat) (hx : x ∉ cl) : aget (setAll flag k cl) x = aget flag x := by
  induction cl generalizing flag with
  | nil => rfl
  | cons c cl ih =>
    rw [setAll_cons, ih _ (fun h => hx (List.mem_cons_of_mem c h)),
      aget_aset_ne _ _ _ _ (fun he => hx (by rw [← he]; exact List.mem_cons_self c cl))]

theorem aget_setAll_mem (flag : List Nat) (k : Nat) (cl : List Nat)
    (x : Nat) (hx : x ∈ cl) (hlt : x < flag.length) :
    aget (setAll flag k cl) x = k := by
  induction cl generalizing flag with
  | nil => simp at hx
  | cons c cl ih =>
    rw [setAll_cons]
    by_cases hmem : x ∈ cl
    · exact ih _ hmem (by rw [length_aset]; exact hlt)
    · have hxc : x = c := by
        rcases List.mem_cons.mp hx with h | h
        · exact h
        · exact absurd h hmem
      subst hxc
      rw [aget_setAll_not_mem _ _ _ _ hmem, aget_aset_eq _ _ _ hlt]

/-- `revCopy` spec: the new `top` drops by `len`, positions outside
`[top-len, top)` are untouched, and the window `[top-len, top)` receives the
first `len` entries of the buffer in order. -/
theorem revCopy_spec (len : Nat) : ∀ (top : Nat) (pattern : List Nat),
    len ≤ top → top ≤ pattern.length →
    (revCopy len top pattern).1 = top - len ∧
    (revCopy len top pattern).2.length = pattern.length ∧
    (∀ j, j < top - len → aget (revCopy len top pattern).2 j = aget pattern j) ∧
    (∀ j, top ≤ j → aget (revCopy len top pattern).2 j = aget pattern j) ∧
    (∀ j, j < len → aget (revCopy len top pattern).2 (top - len + j) = aget pattern j) := by
  induction len with
  | zero =>
    intro top pattern _ _
    exact ⟨rfl, rfl, fun j _ => rfl, fun j _ => rfl,
      fun j hj => absurd hj (Nat.not_lt_zero j)⟩
  | succ len ih =>
    intro top pattern hlen htop
    have hstep : revCopy (len + 1) top pattern =
        revCopy len (top - 1) (aset pattern (top - 1) (aget pattern len)) := rfl
    obtain ⟨ih1, ih2, ihlow, ihhigh, ihwin⟩ :=
      ih (top - 1) (aset pattern (top - 1) (aget pattern len))
        (by omega) (by rw [length_aset]; omega)
    rw [hstep]
    refine ⟨by rw [ih1]; omega, by rw [ih2, length_aset], ?_, ?_, ?_⟩
    · intro j hj
      rw [ihlow j (by omega), aget_aset_ne _ _ _ _ (by omega)]
    · intro j hj
      rw [ihhigh j (by omega), aget_aset_ne _ _ _ _ (by omega)]
    · intro j hj
      rcases Nat.lt_succ_iff_lt_or_eq.mp hj with hj' | hj'
      · have harith : top - (len + 1) + j = top - 1 - len + j := by omega
        rw [harith, ihwin j hj', aget_aset_ne _ _ _ _ (by omega)]
      · subst hj'
        have harith : top - (j + 1) + j = top - 1 := by omega
        rw [harith, ihhigh (top - 1) (Nat.le_refl _),
          aget_aset_eq _ _ _ (by omega)]

/-!
## C6: the discovered pattern is topologically ordered
-/

/-- The non-discarded tail `pattern_workspace[top..n]` as a list. -/
def suffList (pattern : List Nat) (top n : Nat) : List Nat :=
  (List.range' top (n - top)).map (aget pattern)

/-- `x` lies on the elimination-tree path climbing from `i`, strictly before
the path reaches `k`. -/
def belowPath (parents : List Int) (k i x : Nat) : Prop :=
  ∃ m, parentIter parents m i = x ∧ ∀ j, j ≤ m → parentIter parents j i ≠ k

/-- `y` is a strict elimination-tree ancestor of `x`: it is reached from `x`
by at least one parent step, never stepping out of a root. -/
def isAncestor (parents : List Int) (x y : Nat) : Prop :=
  ∃ m, 0 < m ∧ parentIter parents m x = y ∧
    ∀ j, j < m → aget parents (parentIter parents j x) ≠ -1

theorem suffList_length (pattern : List Nat) (top n : Nat) :
    (suffList pattern top n).length = n - top := by
  simp [suffList]

theorem aget_append_lt (l1 l2 : List Nat) (j : Nat) (hj : j < l1.length) :
    aget (l1 ++ l2) j = aget l1 j := by
  rw [aget_eq_getElem _ j (by rw [List.length_append]; omega),
    aget_eq_getElem l1 j hj, List.getElem_append_left]

theorem aget_append_ge (l1 l2 : List Nat) (j : Nat) (hj : l1.length ≤ j)
    (hj2 : j < l1.length + l2.length) :
    aget (l1 ++ l2) j = aget l2 (j - l1.length) := by
  rw [aget_eq_getElem _ j (by rw [List.length_append]; omega),
    aget_eq_getElem l2 _ (by omega)]
  rw [List.getElem_append_right hj]

theorem aget_of_mem (l : List Nat) (x : Nat) (hx : x ∈ l) :
    ∃ j, j < l.length ∧ aget l j = x := by
  obtain ⟨j, hj, he⟩ := List.mem_iff_getElem.mp hx
  exact ⟨j, hj, by rw [aget_eq_getElem l j hj]; exact he⟩

theorem aget_mem (l : List Nat) (j : Nat) (hj : j < l.length) :
    aget l j ∈ l := by
  rw [aget_eq_getElem l j hj]
  exact List.getElem_mem hj

/-- A duplicate-free list of naturals below `k` has at most `k` elements. -/
theorem nodup_lt_length_le (l : List Nat) (hnd : l.Nodup) (k : Nat)
    (hlt : ∀ x ∈ l, x < k) : l.length ≤ k := by
  have hsub : l.toFinset ⊆ Finset.range k := by
    intro x hx
    rw [Finset.mem_range]
    exact hlt x (List.mem_toFinset.mp hx)
  have := Finset.card_le_card hsub
  rw [Finset.card_range, List.toFinset_card_of_nodup hnd] at this
  exact this

/-- A window of a buffer read through `range'` equals a list given pointwise
agreement. -/
theorem range'_map_aget_eq (pat : List Nat) (a len : Nat) (cl : List Nat)
    (hlen : cl.length = len)
    (h : ∀ j, j < len → aget pat (a + j) = aget cl j) :
    (List.range' a len).map (aget pat) = cl := by
  apply List.ext_getElem (by simp [hlen])
  intro j h1 h2
  simp only [List.getElem_map, List.getElem_range']
  rw [← aget_eq_getElem cl j h2, ← h j (by simpa using h1)]
  congr 1
  omega

theorem parentIter_add (parents : List Int) (a b i : Nat) :
    parentIter parents (a + b) i = parentIter parents b (parentIter parents a i) := by
  induction a generalizing i with
  | zero => rw [Nat.zero_add]; rfl
  | succ a ih =>
    have h1 : a + 1 + b = a + b + 1 := by omega
    have h2 : parentIter parents (a + b + 1) i =
        parentIter parents (a + b) ((aget parents i).toNat) := rfl
    rw [h1, h2, ih]
    rfl

theorem chainOk_self (parents : List Int) (k fuel : Nat) (hfuel : 0 < fuel) :
    chainOk parents k fuel k = true := by
  cases fuel with
  | zero => omega
  | succ fuel => rw [chainOk, if_pos rfl]

/-- Following an unchained prefix of the parent path from a `chainOk` node
keeps `chainOk` (with smaller fuel) at every intermediate node. -/
theorem chainOk_iter (parents : List Int) (k : Nat) :
    ∀ (m fuel i : Nat), chainOk parents k fuel i = true →
      (∀ j, j < m → parentIter parents j i ≠ k) →
      ∃ fuel2, fuel2 ≤ fuel ∧ chainOk parents k fuel2 (parentIter parents m i) = true := by
  intro m
  induction m with
  | zero => intro fuel i hok _; exact ⟨fuel, Nat.le_refl _, hok⟩
  | succ m ih =>
    intro fuel i hok hpath
    cases fuel with
    | zero => simp [chainOk] at hok
    | succ fuel =>
      have hik : i ≠ k := hpath 0 (Nat.succ_pos m)
      rw [chainOk, if_neg hik] at hok
      simp only [Bool.and_eq_true, decide_eq_true_eq] at hok
      obtain ⟨⟨⟨h1, h2⟩, h3⟩, h4⟩ := hok
      have hiter : parentIter parents (m + 1) i =
          parentIter parents m ((aget parents i).toNat) := rfl
      rw [hiter]
      obtain ⟨fuel2, hf2, hok2⟩ := ih fuel _ h4
        (fun j hj => by
          have : parentIter parents j ((aget parents i).toNat) =
              parentIter parents (j + 1) i := rfl
          rw [this]
          exact hpath (j + 1) (Nat.succ_lt_succ hj))
      exact ⟨fuel2, Nat.le_succ_of_le hf2, hok2⟩

/-- A node with a chain to `k` whose path has not yet reached `k` stays
strictly below `k`. -/
theorem chainOk_path_lt (parents : List Int) (k fuel i : Nat)
    (hok : chainOk parents k fuel i = true) (m : Nat)
    (hpath : ∀ j, j ≤ m → parentIter parents j i ≠ k) :
    parentIter parents m i < k := by
  obtain ⟨fuel2, _, hok2⟩ :=
    chainOk_iter parents k m fuel i hok (fun j hj => hpath j (Nat.le_of_lt hj))
  have hle := chainOk_le parents k fuel2 _ hok2
  exact Nat.lt_of_le_of_ne hle (hpath m (Nat.le_refl m))

theorem suffList_aget (pattern : List Nat) (top n t : Nat) (ht : t < n - top) :
    aget (suffList pattern top n) t = aget pattern (top + t) := by
  unfold suffList
  rw [aget_eq_getElem _ t (by simpa using ht)]
  simp only [List.getElem_map, List.getElem_range']
  congr 1
  omega

/-- Invariant of the pattern-discovery loop of `ldl_numeric` at column `k`,
after the entries in `processed` have been handled: the non-discarded tail
`pattern_workspace[top..n]` holds exactly the strictly-below-`k` ancestors
discovered so far, each flagged for `k`, without duplicates, each one
followed (further down the tail) by its parent unless that parent is `k`,
and membership is exactly reachability below `k` from a processed entry. -/
structure DiscInv (n k : Nat) (parents : List Int) (flag0 : List Nat)
    (processed : List (Nat × ℚ)) (top : Nat) (s : NumState) : Prop where
  hpat : s.pattern.length = n
  hflag : s.flag.length = n
  htop : top ≤ n
  hfk : aget s.flag k = k
  hframe : ∀ x, x ∉ suffList s.pattern top n → aget s.flag x = aget flag0 x
  hmarked : ∀ x ∈ suffList s.pattern top n, aget s.flag x = k
  hnd : (suffList s.pattern top n).Nodup
  helem : ∀ x ∈ suffList s.pattern top n,
    x < k ∧ x < (aget parents x).toNat ∧ (aget parents x).toNat ≤ k
  hlinks : ∀ j, j < (suffList s.pattern top n).length →
    (aget parents (aget (suffList s.pattern top n) j)).toNat = k ∨
      ∃ j2, j < j2 ∧ j2 < (suffList s.pattern top n).length ∧
        aget (suffList s.pattern top n) j2 =
          (aget parents (aget (suffList s.pattern top n) j)).toNat
  hmem : ∀ x, x ∈ suffList s.pattern top n ↔
    ∃ iv ∈ processed, iv.1 < k ∧ belowPath parents k iv.1 x

/-- The discovered tail is closed under parent steps that stay below `k`. -/
theorem DiscInv.closure {n k : Nat} {parents : List Int} {flag0 : List Nat}
    {processed : List (Nat × ℚ)} {top : Nat} {s : NumState}
    (h : DiscInv n k parents flag0 processed top s) :
    ∀ mz z x, z ∈ suffList s.pattern top n →
      parentIter parents mz z = x →
      (∀ j, j ≤ mz → parentIter parents j z ≠ k) →
      x ∈ suffList s.pattern top n := by
  intro mz
  induction mz with
  | zero => intro z x hz hx _; exact hx ▸ hz
  | succ mz ih =>
    intro z x hz hx hpath
    obtain ⟨jz, hjz, hjzz⟩ := aget_of_mem _ z hz
    rcases h.hlinks jz hjz with hkp | ⟨j2, _, hj2, hval⟩
    · exfalso
      rw [hjzz] at hkp
      exact hpath 1 (by omega) hkp
    · rw [hjzz] at hval
      have hpz : (aget parents z).toNat ∈ suffList s.pattern top n := by
        rw [← hval]
        exact aget_mem _ j2 hj2
      refine ih _ x hpz ?_ ?_
      · have hadd : mz + 1 = 1 + mz := by omega
        rw [hadd, parentIter_add] at hx
        exact hx
      · intro j hj
        have hstep : parentIter parents j ((aget parents z).toNat) =
            parentIter parents (1 + j) z := by
          rw [parentIter_add]
          rfl
        rw [hstep]
        exact hpath (1 + j) (by omega)

/-- Any node strictly below `k` flagged for `k` is in the discovered tail. -/
theorem DiscInv.flagged_mem {n k : Nat} {parents : List Int} {flag0 : List Nat}
    {processed : List (Nat × ℚ)} {top : Nat} {s : NumState}
    (h : DiscInv n k parents flag0 processed top s)
    (hflag0 : ∀ x, x < k → aget flag0 x ≠ k) :
    ∀ x, x < k → aget s.flag x = k → x ∈ suffList s.pattern top n := by
  intro x hx hfl
  by_contra hnotmem
  exact hflag0 x hx ((h.hframe x hnotmem) ▸ hfl)

/-- Processing one stored entry of column `k` preserves the discovery
invariant, extending the processed-prefix by that entry. -/
theorem numericEntry_inv (n k : Nat) (parents : List Int) (flag0 : List Nat)
    (processed : List (Nat × ℚ)) (top : Nat) (s : NumState) (iv : Nat × ℚ)
    (hk : k < n)
    (hflag0 : ∀ x, x < k → aget flag0 x ≠ k)
    (hchain : iv.1 < k → chainOk parents k n iv.1 = true)
    (hinv : DiscInv n k parents flag0 processed top s) :
    DiscInv n k parents flag0 (processed ++ [iv])
      (numericEntry n k parents (top, s) iv).1
      (numericEntry n k parents (top, s) iv).2 := by
  by_cases hik : iv.1 ≤ k
  case neg =>
    have hres : numericEntry n k parents (top, s) iv = (top, s) := by
      unfold numericEntry
      rw [if_neg hik]
    rw [hres]
    refine ⟨hinv.hpat, hinv.hflag, hinv.htop, hinv.hfk, hinv.hframe,
      hinv.hmarked, hinv.hnd, hinv.helem, hinv.hlinks, fun x => ?_⟩
    rw [hinv.hmem x]
    constructor
    · rintro ⟨iv', hiv', h1, h2⟩
      exact ⟨iv', List.mem_append_left _ hiv', h1, h2⟩
    · rintro ⟨iv', hiv', h1, h2⟩
      rcases List.mem_append.mp hiv' with hm | hm
      · exact ⟨iv', hm, h1, h2⟩
      · exfalso
        rw [List.mem_singleton] at hm
        subst hm
        omega
  case pos =>
    have hok : chainOk parents k n iv.1 = true := by
      rcases Nat.lt_or_ge iv.1 k with h | h
      · exact hchain h
      · have hivk : iv.1 = k := by omega
        rw [hivk]
        exact chainOk_self parents k n (by omega)
    obtain ⟨cl, hcl⟩ : ∃ l, l = walkChain parents k s.flag n iv.1 := ⟨_, rfl⟩
    have hclnd : cl.Nodup := by
      rw [hcl]; exact walkChain_nodup parents k s.flag hinv.hfk n iv.1 hok
    have hclelem : ∀ x ∈ cl, x < k ∧ x < (aget parents x).toNat ∧
        (aget parents x).toNat ≤ k ∧ aget s.flag x ≠ k := by
      rw [hcl]; exact walkChain_elem parents k s.flag hinv.hfk n iv.1 hok
    have hclget : ∀ j, j < cl.length → aget cl j = parentIter parents j iv.1 := by
      rw [hcl]; exact walkChain_get parents k s.flag n iv.1
    have hcllinks : ∀ j, j < cl.length →
        (j + 1 < cl.length ∧ aget cl (j + 1) = (aget parents (aget cl j)).toNat) ∨
        (j + 1 = cl.length ∧ aget s.flag ((aget parents (aget cl j)).toNat) = k) := by
      rw [hcl]; exact walkChain_links parents k s.flag hinv.hfk n iv.1 hok
    obtain ⟨oldL, holdL⟩ : ∃ l, l = suffList s.pattern top n := ⟨_, rfl⟩
    have holdlen : oldL.length = n - top := by
      rw [holdL]; exact suffList_length s.pattern top n
    have hOmarked : ∀ x ∈ oldL, aget s.flag x = k := by
      rw [holdL]; exact hinv.hmarked
    have hOnd : oldL.Nodup := by rw [holdL]; exact hinv.hnd
    have hOelem : ∀ x ∈ oldL, x < k ∧ x < (aget parents x).toNat ∧
        (aget parents x).toNat ≤ k := by
      rw [holdL]; exact hinv.helem
    have hOlinks : ∀ j, j < oldL.length →
        (aget parents (aget oldL j)).toNat = k ∨
        ∃ j2, j < j2 ∧ j2 < oldL.length ∧
          aget oldL j2 = (aget parents (aget oldL j)).toNat := by
      rw [holdL]; exact hinv.hlinks
    have hOmem : ∀ x, x ∈ oldL ↔
        ∃ iv' ∈ processed, iv'.1 < k ∧ belowPath parents k iv'.1 x := by
      rw [holdL]; exact hinv.hmem
    have hOflagged : ∀ x, x < k → aget s.flag x = k → x ∈ oldL := by
      rw [holdL]; exact hinv.flagged_mem hflag0
    have hOclosure : ∀ mz z x, z ∈ oldL → parentIter parents mz z = x →
        (∀ j, j ≤ mz → parentIter parents j z ≠ k) → x ∈ oldL := by
      rw [holdL]; exact hinv.closure
    have hdisj : ∀ x ∈ cl, x ∉ oldL :=
      fun x hx hmem => (hclelem x hx).2.2.2 (hOmarked x hmem)
    have hndnew : (cl ++ oldL).Nodup := by
      rw [List.nodup_append]; exact ⟨hclnd, hOnd, hdisj⟩
    have hltnew : ∀ x ∈ cl ++ oldL, x < k := by
      intro x hx
      rcases List.mem_append.mp hx with hm | hm
      · exact (hclelem x hm).1
      · exact (hOelem x hm).1
    have hTop : top ≤ n := hinv.htop
    have hlen_le : cl.length + (n - top) ≤ k := by
      have hcard := nodup_lt_length_le (cl ++ oldL) hndnew k hltnew
      rw [List.length_append, holdlen] at hcard
      exact hcard
    have hcl_top : cl.length ≤ top := by omega
    obtain ⟨hwlen, hwframe, hwwin⟩ := writeSeq_spec cl s.pattern 0
    have hwfit : 0 + cl.length ≤ s.pattern.length := by rw [hinv.hpat]; omega
    obtain ⟨hrc1, hrc2, hrclow, hrchigh, hrcwin⟩ :=
      revCopy_spec cl.length top (writeSeq s.pattern 0 cl) hcl_top
        (by rw [hwlen, hinv.hpat]; exact hTop)
    have hwalk := numericWalk_spec k parents n iv.1 0 s.pattern s.flag hinv.hfk hok
    rw [← hcl] at hwalk
    obtain ⟨patN, hpatN⟩ : ∃ l, l = (revCopy cl.length top (writeSeq s.pattern 0 cl)).2 :=
      ⟨_, rfl⟩
    obtain ⟨flagN, hflagN⟩ : ∃ l, l = setAll s.flag k cl := ⟨_, rfl⟩
    obtain ⟨topN, htopN⟩ : ∃ t, t = top - cl.length := ⟨_, rfl⟩
    rw [← hpatN] at hrc2 hrclow hrchigh hrcwin
    rw [← htopN] at hrc1 hrcwin
    have hres : numericEntry n k parents (top, s) iv =
        (topN,
          ({ l_nz := s.l_nz
             l_indices := s.l_indices
             l_data := s.l_data
             diag := s.diag
             y := aset s.y iv.1 (aget s.y iv.1 + iv.2)
             pattern := patN
             flag := flagN } : NumState)) := by
      unfold numericEntry
      rw [if_pos hik]
      simp only [hwalk, Nat.zero_add]
      rw [← hpatN, ← hflagN, hrc1]
    have hpatlen : patN.length = n := by
      rw [hrc2, hwlen]; exact hinv.hpat
    -- the new tail is exactly the collected chain followed by the old tail
    have hsuff : suffList patN topN n = cl ++ oldL := by
      unfold suffList
      refine range'_map_aget_eq patN topN (n - topN) (cl ++ oldL) ?_ ?_
      · rw [List.length_append, holdlen, htopN]; omega
      · intro j hj
        rw [htopN] at hj
        rcases Nat.lt_or_ge j cl.length with hjc | hjc
        · rw [aget_append_lt cl oldL j hjc, hrcwin j hjc]
          have hww := hwwin hwfit j hjc
          rw [Nat.zero_add] at hww
          exact hww
        · have hjlen : j < cl.length + (n - top) := by omega
          rw [aget_append_ge cl oldL j hjc (by rw [holdlen]; omega)]
          have hpos : topN + j = top + (j - cl.length) := by rw [htopN]; omega
          rw [hpos, hrchigh _ (by omega), hwframe _ (Or.inr (by omega)),
            holdL, suffList_aget s.pattern top n _ (by omega)]
    rw [hres]
    constructor
    case hpat => exact hpatlen
    case hflag =>
      show flagN.length = n
      rw [hflagN, setAll_length]; exact hinv.hflag
    case htop =>
      show topN ≤ n
      rw [htopN]; omega
    case hfk =>
      show aget flagN k = k
      rw [hflagN, aget_setAll_not_mem _ _ _ _ (fun hmem => by
        have := (hclelem k hmem).1
        omega)]
      exact hinv.hfk
    case hframe =>
      intro x hx
      rw [hsuff] at hx
      show aget flagN x = aget flag0 x
      rw [hflagN, aget_setAll_not_mem _ _ _ _ (fun hmem =>
        hx (List.mem_append_left _ hmem))]
      refine (?_ : aget s.flag x = aget flag0 x)
      have hnold : x ∉ suffList s.pattern top n := by
        rw [← holdL]
        exact fun hmem => hx (List.mem_append_right _ hmem)
      exact hinv.hframe x hnold
    case hmarked =>
      intro x hx
      rw [hsuff] at hx
      show aget flagN x = k
      rcases List.mem_append.mp hx with hm | hm
      · rw [hflagN]
        refine aget_setAll_mem _ _ _ _ hm ?_
        rw [hinv.hflag]
        exact Nat.lt_trans (hclelem x hm).1 hk
      · rw [hflagN, aget_setAll_not_mem _ _ _ _ (fun hmem => hdisj x hmem hm)]
        exact hOmarked x hm
    case hnd =>
      rw [hsuff]; exact hndnew
    case helem =>
      intro x hx
      rw [hsuff] at hx
      rcases List.mem_append.mp hx with hm | hm
      · exact ⟨(hclelem x hm).1, (hclelem x hm).2.1, (hclelem x hm).2.2.1⟩
      · exact hOelem x hm
    case hlinks =>
      intro j hj
      rw [hsuff] at hj ⊢
      rw [List.length_append] at hj
      rcases Nat.lt_or_ge j cl.length with hjc | hjc
      · rw [aget_append_lt cl oldL j hjc]
        rcases hcllinks j hjc with ⟨hlt, hval⟩ | ⟨heq, hflagval⟩
        · right
          refine ⟨j + 1, Nat.lt_succ_self j, by rw [List.length_append]; omega, ?_⟩
          rw [aget_append_lt cl oldL (j + 1) hlt, hval]
        · have hxmem : aget cl j ∈ cl := aget_mem cl j hjc
          have hpx := (hclelem _ hxmem).2.2.1
          rcases Nat.lt_or_ge ((aget parents (aget cl j)).toNat) k with hpk | hpk
          · have hpmem : (aget parents (aget cl j)).toNat ∈ oldL :=
              hOflagged _ hpk hflagval
            obtain ⟨j2, hj2, hj2v⟩ := aget_of_mem oldL _ hpmem
            right
            refine ⟨cl.length + j2, by omega, by rw [List.length_append]; omega, ?_⟩
            rw [aget_append_ge cl oldL _ (by omega) (by omega)]
            have harith : cl.length + j2 - cl.length = j2 := by omega
            rw [harith, hj2v]
          · left
            omega
      · have hj' : j - cl.length < oldL.length := by omega
        rw [aget_append_ge cl oldL j hjc (by omega)]
        rcases hOlinks (j - cl.length) hj' with hkp | ⟨j2, hj2a, hj2b, hj2v⟩
        · left; exact hkp
        · right
          refine ⟨cl.length + j2, by omega, by rw [List.length_append]; omega, ?_⟩
          rw [aget_append_ge cl oldL _ (by omega) (by omega)]
          have harith : cl.length + j2 - cl.length = j2 := by omega
          rw [harith, hj2v]
    case hmem =>
      intro x
      rw [hsuff]
      constructor
      · intro hx
        rcases List.mem_append.mp hx with hm | hm
        · have hne : cl ≠ [] := by
            intro he; rw [he] at hm; simp at hm
          have hivlt : iv.1 < k := by
            rcases Nat.lt_or_ge iv.1 k with h | h
            · exact h
            · exfalso
              have hivk : iv.1 = k := by omega
              apply hne
              rw [hcl, hivk]
              cases n with
              | zero => rfl
              | succ n' =>
                rw [walkChain]
                rw [if_neg (by simp [hinv.hfk])]
          obtain ⟨j, hj, hjv⟩ := aget_of_mem cl x hm
          refine ⟨iv, List.mem_append_right _ (List.mem_singleton.mpr rfl), hivlt,
            j, ?_, ?_⟩
          · rw [← hjv, hclget j hj]
          · intro j' hj'
            have hj'lt : j' < cl.length := by omega
            have hstep : parentIter parents j' iv.1 = aget cl j' :=
              (hclget j' hj'lt).symm
            rw [hstep]
            have := (hclelem _ (aget_mem cl j' hj'lt)).1
            omega
        · obtain ⟨iv', h1, h2, h3⟩ := (hOmem x).mp hm
          exact ⟨iv', List.mem_append_left _ h1, h2, h3⟩
      · rintro ⟨iv', hiv', hivlt, m, hmx, hmpath⟩
        rcases List.mem_append.mp hiv' with hm | hm
        · refine List.mem_append_right _ ?_
          exact (hOmem x).mpr ⟨iv', hm, hivlt, m, hmx, hmpath⟩
        · rw [List.mem_singleton] at hm
          subst hm
          by_cases hflagged : ∃ j, j ≤ m ∧ aget s.flag (parentIter parents j iv'.1) = k
          · obtain ⟨j0, hj0m, hj0f⟩ := hflagged
            have hz : parentIter parents j0 iv'.1 < k :=
              chainOk_path_lt parents k n iv'.1 (hchain hivlt) j0
                (fun j hj => hmpath j (by omega))
            have hzmem : parentIter parents j0 iv'.1 ∈ oldL := hOflagged _ hz hj0f
            refine List.mem_append_right _ ?_
            refine hOclosure (m - j0) _ x hzmem ?_ ?_
            · rw [← parentIter_add]
              have harith : j0 + (m - j0) = m := by omega
              rw [harith]
              exact hmx
            · intro j hj
              rw [← parentIter_add]
              exact hmpath (j0 + j) (by omega)
          · refine List.mem_append_left _ ?_
            rw [← hmx, hcl]
            refine walkChain_cover parents k s.flag hinv.hfk n iv'.1 (hchain hivlt) m ?_
            intro j hj
            exact fun hcon => hflagged ⟨j, hj, hcon⟩

/-- Folding a list of entries through the discovery loop preserves the
invariant, accumulating the processed prefix. -/
theorem numericEntries_inv (n k : Nat) (parents : List Int) (flag0 : List Nat)
    (hk : k < n) (hflag0 : ∀ x, x < k → aget flag0 x ≠ k) :
    ∀ (l pref : List (Nat × ℚ)) (top : Nat) (s : NumState),
      (∀ iv ∈ l, iv.1 < k → chainOk parents k n iv.1 = true) →
      DiscInv n k parents flag0 pref top s →
      DiscInv n k parents flag0 (pref ++ l)
        (l.foldl (numericEntry n k parents) (top, s)).1
        (l.foldl (numericEntry n k parents) (top, s)).2 := by
  intro l
  induction l with
  | nil =>
    intro pref top s _ hinv
    rw [List.append_nil]
    exact hinv
  | cons iv l ih =>
    intro pref top s hchain hinv
    have hstep := numericEntry_inv n k parents flag0 pref top s iv hk hflag0
      (hchain iv (List.mem_cons_self iv l)) hinv
    have hfold : (iv :: l).foldl (numericEntry n k parents) (top, s) =
        l.foldl (numericEntry n k parents)
          ((numericEntry n k parents (top, s) iv).1,
            (numericEntry n k parents (top, s) iv).2) := by
      rw [List.foldl_cons]
    rw [hfold]
    have := ih (pref ++ [iv]) _ _
      (fun iv' hiv' => hchain iv' (List.mem_cons_of_mem iv hiv')) hstep
    rw [List.append_assoc] at this
    simpa using this

/-- The discovery phase of column `k` satisfies the invariant with all of
column `k`'s entries processed, relative to the flags as they stand right
after `flag[k] := k`. -/
theorem numericDiscover_inv (n k : Nat) (parents : List Int)
    (cols : Nat → List (Nat × ℚ)) (s : NumState)
    (hk : k < n) (hpat : s.pattern.length = n) (hflag : s.flag.length = n)
    (hfl : ∀ x, x < k → aget s.flag x ≠ k)
    (hchain : ∀ iv ∈ cols k, iv.1 < k → chainOk parents k n iv.1 = true) :
    DiscInv n k parents (aset s.flag k k) (cols k)
      (numericDiscover n k parents cols s).1
      (numericDiscover n k parents cols s).2 := by
  have hflag0 : ∀ x, x < k → aget (aset s.flag k k) x ≠ k := by
    intro x hx
    rw [aget_aset_ne _ _ _ _ (by omega)]
    exact hfl x hx
  have hnil : suffList s.pattern n n = [] := by
    unfold suffList
    rw [Nat.sub_self]
    rfl
  obtain ⟨s0, hs0⟩ : ∃ t, t =
      ({ s with flag := aset s.flag k k, y := aset s.y k 0, l_nz := aset s.l_nz k 0 } : NumState) :=
    ⟨_, rfl⟩
  have hs0pat : s0.pattern = s.pattern := by rw [hs0]
  have hs0flag : s0.flag = aset s.flag k k := by rw [hs0]
  have hbase : DiscInv n k parents (aset s.flag k k) [] n s0 := by
    refine ⟨?_, ?_, Nat.le_refl n, ?_, ?_, ?_, ?_, ?_, ?_, ?_⟩
    · rw [hs0pat]; exact hpat
    · rw [hs0flag, length_aset]; exact hflag
    · rw [hs0flag]; exact aget_aset_eq _ _ _ (by rw [hflag]; exact hk)
    · intro x _
      rw [hs0flag]
    · intro x hx
      rw [hs0pat, hnil] at hx
      simp at hx
    · rw [hs0pat, hnil]
      exact List.nodup_nil
    · intro x hx
      rw [hs0pat, hnil] at hx
      simp at hx
    · intro j hj
      rw [hs0pat, hnil] at hj
      simp at hj
    · intro x
      rw [hs0pat, hnil]
      simp
  have hdisc : numericDiscover n k parents cols s =
      (cols k).foldl (numericEntry n k parents) (n, s0) := by
    rw [hs0]
    rfl
  rw [hdisc]
  have hfin := numericEntries_inv n k parents (aset s.flag k k) hk hflag0
    (cols k) [] n s0 hchain hbase
  simpa using hfin

/-- With a valid elimination forest, following parents (without stepping out
of a root) strictly increases node indices and stays below `n`. -/
theorem ancestor_gt (parents : List Int) (n : Nat)
    (hpar : ∀ x, x < n → aget parents x = -1 ∨
      ((x : Int) < aget parents x ∧ aget parents x < (n : Int))) :
    ∀ m z, z < n →
      (∀ j, j < m → aget parents (parentIter parents j z) ≠ -1) →
      z ≤ parentIter parents m z ∧ parentIter parents m z < n ∧
        (0 < m → z < parentIter parents m z) := by
  intro m
  induction m with
  | zero =>
    intro z hz _
    exact ⟨Nat.le_refl z, hz, fun h => absurd h (by omega)⟩
  | succ m ih =>
    intro z hz hroots
    have hz0 : aget parents z ≠ -1 := by
      have := hroots 0 (Nat.succ_pos m)
      exact this
    rcases hpar z hz with hr | ⟨hlb, hub⟩
    · exact absurd hr hz0
    · have hz1 : z < (aget parents z).toNat ∧ (aget parents z).toNat < n := by
        omega
      have hiter : parentIter parents (m + 1) z =
          parentIter parents m ((aget parents z).toNat) := rfl
      obtain ⟨h1, h2, _⟩ := ih ((aget parents z).toNat) hz1.2
        (fun j hj => by
          have hstep : parentIter parents j ((aget parents z).toNat) =
              parentIter parents (j + 1) z := rfl
          rw [hstep]
          exact hroots (j + 1) (Nat.succ_lt_succ hj))
      rw [hiter]
      exact ⟨by omega, h2, fun _ => by omega⟩

/-- Ancestors of a node of the discovered pattern that lie in the pattern
occur strictly later in it. -/
theorem topo_order (parents : List Int) (n k : Nat) (L : List Nat)
    (hk : k < n)
    (hpar : ∀ x, x < n → aget parents x = -1 ∨
      ((x : Int) < aget parents x ∧ aget parents x < (n : Int)))
    (helem : ∀ x ∈ L, x < k ∧ x < (aget parents x).toNat ∧
      (aget parents x).toNat ≤ k)
    (hlinks : ∀ j, j < L.length →
      (aget parents (aget L j)).toNat = k ∨
        ∃ j2, j < j2 ∧ j2 < L.length ∧
          aget L j2 = (aget parents (aget L j)).toNat) :
    ∀ m j, j < L.length → 0 < m →
      (∀ j', j' < m → aget parents (parentIter parents j' (aget L j)) ≠ -1) →
      parentIter parents m (aget L j) ∈ L →
      ∃ j2, j < j2 ∧ j2 < L.length ∧
        aget L j2 = parentIter parents m (aget L j) := by
  intro m
  induction m with
  | zero => intro j _ h0; omega
  | succ m ih =>
    intro j hj _ hroots hmem
    have hx := helem _ (aget_mem L j hj)
    have hstep1 : parentIter parents (m + 1) (aget L j) =
        parentIter parents m ((aget parents (aget L j)).toNat) := rfl
    cases Nat.eq_zero_or_pos m with
    | inl hm0 =>
      subst hm0
      rcases hlinks j hj with hkp | ⟨j2, hj2a, hj2b, hj2v⟩
      · exfalso
        rw [hstep1] at hmem
        have h00 : parentIter parents 0 ((aget parents (aget L j)).toNat) =
            (aget parents (aget L j)).toNat := rfl
        rw [h00, hkp] at hmem
        have := (helem _ hmem).1
        omega
      · refine ⟨j2, hj2a, hj2b, ?_⟩
        rw [hj2v, hstep1]
        rfl
    | inr hmpos =>
      rcases hlinks j hj with hkp | ⟨j2, hj2a, hj2b, hj2v⟩
      · exfalso
        rw [hstep1, hkp] at hmem
        have hup := ancestor_gt parents n hpar m k hk
          (fun j' hj' => by
            have hs : parentIter parents j' k =
                parentIter parents (j' + 1) (aget L j) := by
              have h1 : j' + 1 = 1 + j' := by omega
              rw [h1, parentIter_add]
              have h2 : parentIter parents 1 (aget L j) = k := by
                rw [show parentIter parents 1 (aget L j) =
                  (aget parents (aget L j)).toNat from rfl, hkp]
              rw [h2]
            rw [hs]
            exact hroots (j' + 1) (by omega))
        have hlt := (helem _ hmem).1
        have := hup.2.2 hmpos
        omega
      · have hmem2 : parentIter parents m (aget L j2) ∈ L := by
          rw [hj2v, ← hstep1]
          exact hmem
        obtain ⟨j3, hj3a, hj3b, hj3v⟩ := ih j2 hj2b hmpos
          (fun j' hj' => by
            rw [hj2v]
            have hs : parentIter parents j' ((aget parents (aget L j)).toNat) =
                parentIter parents (j' + 1) (aget L j) := rfl
            rw [hs]
            exact hroots (j' + 1) (by omega)) hmem2
        refine ⟨j3, by omega, hj3b, ?_⟩
        rw [hj3v, hj2v, hstep1]

theorem nodup_aget_inj (L : List Nat) (hnd : L.Nodup) (j1 j2 : Nat)
    (h1 : j1 < L.length) (h2 : j2 < L.length) (he : aget L j1 = aget L j2) :
    j1 = j2 := by
  by_contra hne
  rcases Nat.lt_or_ge j1 j2 with h | h
  · exact (List.nodup_iff_getElem?_ne_getElem?.mp hnd j1 j2 h h2)
      (by rw [List.getElem?_eq_getElem (by omega), List.getElem?_eq_getElem h2,
        ← aget_eq_getElem L j1 h1, ← aget_eq_getElem L j2 h2, he])
  · have h' : j2 < j1 := by omega
    exact (List.nodup_iff_getElem?_ne_getElem?.mp hnd j2 j1 h' h1)
      (by rw [List.getElem?_eq_getElem (by omega), List.getElem?_eq_getElem h1,
        ← aget_eq_getElem L j1 h1, ← aget_eq_getElem L j2 h2, he])

/-- The non-discarded tail `pattern_workspace[top..n]` right after the
pattern-discovery phase of column `k`. -/
def discoverSuffix (n k : Nat) (parents : List Int)
    (cols : Nat → List (Nat × ℚ)) (s : NumState) : List Nat :=
  suffList (numericDiscover n k parents cols s).2.pattern
    (numericDiscover n k parents cols s).1 n

/-- C6: during `ldl_numeric`'s processing of column `k`, after the
pattern-discovery phase over all stored entries at permuted row `i ≤ k`, the
suffix `pattern_workspace[top..n]` holds exactly the set of
strictly-below-diagonal ancestors forming column `k`'s nonzero pattern
(nodes reachable below `k` along the elimination tree from the column's
stored rows), in topological order — every node appears strictly before its
elimination-tree ancestors — and with no duplicates.  The hypotheses are the
state `ldl_numeric` guarantees when it reaches column `k`: no stale flag
equals `k`, each stored entry's row has a valid tree chain to `k` (as built
by `ldl_symbolic`), and `parents` is a forest increasing towards roots. -/
theorem ldl_numeric_pattern_topological (n k : Nat) (parents : List Int)
    (cols : Nat → List (Nat × ℚ)) (s : NumState)
    (hk : k < n) (hpat : s.pattern.length = n) (hflag : s.flag.length = n)
    (hfl : ∀ x, x < k → aget s.flag x ≠ k)
    (hchain : ∀ iv ∈ cols k, iv.1 < k → chainOk parents k n iv.1 = true)
    (hpar : ∀ x, x < n → aget parents x = -1 ∨
      ((x : Int) < aget parents x ∧ aget parents x < (n : Int))) :
    (discoverSuffix n k parents cols s).Nodup ∧
    (∀ x ∈ discoverSuffix n k parents cols s, x < k) ∧
    (∀ x, x ∈ discoverSuffix n k parents cols s ↔
      ∃ iv ∈ cols k, iv.1 < k ∧ belowPath parents k iv.1 x) ∧
    (∀ j1 j2, j1 < (discoverSuffix n k parents cols s).length →
      j2 < (discoverSuffix n k parents cols s).length →
      isAncestor parents (aget (discoverSuffix n k parents cols s) j1)
        (aget (discoverSuffix n k parents cols s) j2) → j1 < j2) := by
  have hinv := numericDiscover_inv n k parents cols s hk hpat hflag hfl hchain
  have hL : discoverSuffix n k parents cols s =
      suffList (numericDiscover n k parents cols s).2.pattern
        (numericDiscover n k parents cols s).1 n := rfl
  refine ⟨?_, ?_, ?_, ?_⟩
  · rw [hL]; exact hinv.hnd
  · intro x hx
    rw [hL] at hx
    exact (hinv.helem x hx).1
  · intro x
    rw [hL]
    exact hinv.hmem x
  · intro j1 j2 h1 h2 hanc
    rw [hL] at h1 h2 hanc
    obtain ⟨m, hm, hiter, hroots⟩ := hanc
    obtain ⟨j3, hj3a, hj3b, hj3v⟩ :=
      topo_order parents n k _ hk hpar hinv.helem hinv.hlinks m j1 h1 hm hroots
        (by rw [hiter]; exact aget_mem _ j2 h2)
    have hj3 : j3 = j2 := by
      refine nodup_aget_inj _ hinv.hnd j3 j2 hj3b h2 ?_
      rw [hj3v, hiter]
    omega

unseal Rat.add Rat.mul Rat.sub Rat.inv in
/-- Witness for C6 on a concrete 2×2 column: the discovered pattern of
column 1 is duplicate-free. -/
theorem ldl_numeric_pattern_topological_witness :
    (discoverSuffix 2 1 [1, -1] (fun _ => [(0, (1 : ℚ)), (1, 2)])
      { l_nz := [0, 0], l_indices := [0], l_data := [0], diag := [0, 0],
        y := [0, 0], pattern := [0, 0], flag := [0, 0] }).Nodup :=
  (ldl_numeric_pattern_topological 2 1 [1, -1] (fun _ => [(0, (1 : ℚ)), (1, 2)])
    { l_nz := [0, 0], l_indices := [0], l_data := [0], diag := [0, 0],
      y := [0, 0], pattern := [0, 0], flag := [0, 0] }
    (by decide) rfl rfl (by decide) (by decide) (by decide)).1

/-!
## C8: re-running the numeric factorization reproduces the same factor

The strategy: two runs over the same matrix, structure and permutation, from
scratch buffers that may differ arbitrarily, perform exactly the same writes.
`NumRel` is the cross-run relation maintained column by column.
-/

/-- `numericEntry` only changes `y`, `pattern` and `flag`. -/
theorem numericEntry_frame (n k : Nat) (parents : List Int)
    (ts : Nat × NumState) (iv : Nat × ℚ) :
    (numericEntry n k parents ts iv).2.l_nz = ts.2.l_nz ∧
    (numericEntry n k parents ts iv).2.l_indices = ts.2.l_indices ∧
    (numericEntry n k parents ts iv).2.l_data = ts.2.l_data ∧
    (numericEntry n k parents ts iv).2.diag = ts.2.diag := by
  unfold numericEntry
  by_cases hik : iv.1 ≤ k
  · rw [if_pos hik]
    exact ⟨rfl, rfl, rfl, rfl⟩
  · rw [if_neg hik]
    exact ⟨rfl, rfl, rfl, rfl⟩

/-- `numericElimNode` only changes `y`, `l_indices`, `l_data`, `diag`,
`l_nz`; it leaves `pattern` and `flag` alone. -/
theorem numericElimNode_frame (k : Nat) (lp : List Nat) (s : NumState) (i : Nat) :
    (numericElimNode k lp s i).pattern = s.pattern ∧
    (numericElimNode k lp s i).flag = s.flag := by
  unfold numericElimNode
  constructor
  · show ((List.range' (aget lp i) (aget s.l_nz i)).foldl _ _ : NumState).pattern = _
    refine foldl_inv (fun z : NumState => z.pattern = s.pattern) _ _ _ rfl ?_
    intro z p _ hz
    exact hz
  · show ((List.range' (aget lp i) (aget s.l_nz i)).foldl _ _ : NumState).flag = _
    refine foldl_inv (fun z : NumState => z.flag = s.flag) _ _ _ rfl ?_
    intro z p _ hz
    exact hz

/-- Closed form of one discovery entry: the walk chain (against the current
flags) is prepended to the tail, `y` is accumulated, and the chain's nodes
are flagged.  `hfit` is the room bound the invariant supplies. -/
theorem numericEntry_closed (n k : Nat) (parents : List Int) (top : Nat)
    (s : NumState) (iv : Nat × ℚ)
    (hik : iv.1 ≤ k) (hok : chainOk parents k n iv.1 = true)
    (hfk : aget s.flag k = k) (hpat : s.pattern.length = n) (htop : top ≤ n)
    (hfit : (walkChain parents k s.flag n iv.1).length ≤ top) :
    (numericEntry n k parents (top, s) iv).1 =
      top - (walkChain parents k s.flag n iv.1).length ∧
    (numericEntry n k parents (top, s) iv).2.y =
      aset s.y iv.1 (aget s.y iv.1 + iv.2) ∧
    (numericEntry n k parents (top, s) iv).2.flag =
      setAll s.flag k (walkChain parents k s.flag n iv.1) ∧
    (numericEntry n k parents (top, s) iv).2.pattern.length = n ∧
    suffList (numericEntry n k parents (top, s) iv).2.pattern
        (numericEntry n k parents (top, s) iv).1 n =
      walkChain parents k s.flag n iv.1 ++ suffList s.pattern top n := by
  obtain ⟨cl, hcl⟩ : ∃ l, l = walkChain parents k s.flag n iv.1 := ⟨_, rfl⟩
  rw [← hcl]
  obtain ⟨hwlen, hwframe, hwwin⟩ := writeSeq_spec cl s.pattern 0
  have hwfit : 0 + cl.length ≤ s.pattern.length := by
    rw [hpat, Nat.zero_add]
    rw [← hcl] at hfit
    omega
  obtain ⟨hrc1, hrc2, hrclow, hrchigh, hrcwin⟩ :=
    revCopy_spec cl.length top (writeSeq s.pattern 0 cl)
      (by rw [← hcl] at hfit; exact hfit) (by rw [hwlen, hpat]; exact htop)
  have hwalk := numericWalk_spec k parents n iv.1 0 s.pattern s.flag hfk hok
  rw [← hcl] at hwalk
  have hres : numericEntry n k parents (top, s) iv =
      ((revCopy cl.length top (writeSeq s.pattern 0 cl)).1,
        ({ l_nz := s.l_nz
           l_indices := s.l_indices
           l_data := s.l_data
           diag := s.diag
           y := aset s.y iv.1 (aget s.y iv.1 + iv.2)
           pattern := (revCopy cl.length top (writeSeq s.pattern 0 cl)).2
           flag := setAll s.flag k cl } : NumState)) := by
    unfold numericEntry
    rw [if_pos hik]
    simp only [hwalk, Nat.zero_add]
  rw [hres]
  have hfit' : cl.length ≤ top := by rw [← hcl] at hfit; exact hfit
  refine ⟨hrc1, rfl, rfl, by rw [hrc2, hwlen, hpat], ?_⟩
  rw [hrc1]
  show (List.range' (top - cl.length) (n - (top - cl.length))).map
      (aget (revCopy cl.length top (writeSeq s.pattern 0 cl)).2) =
    cl ++ suffList s.pattern top n
  refine range'_map_aget_eq _ _ _ _ ?_ ?_
  · rw [List.length_append, suffList_length]
    omega
  · intro j hj
    rcases Nat.lt_or_ge j cl.length with hjc | hjc
    · rw [aget_append_lt cl _ j hjc, hrcwin j hjc]
      have hww := hwwin hwfit j hjc
      rw [Nat.zero_add] at hww
      exact hww
    · have hjlen : j < cl.length + (n - top) := by omega
      rw [aget_append_ge cl _ j (by simpa using hjc)
        (by rw [suffList_length]; omega)]
      have hpos : top - cl.length + j = top + (j - cl.length) := by omega
      rw [hpos, hrchigh _ (by omega), hwframe _ (Or.inr (by omega)),
        suffList_aget s.pattern top n _ (by omega)]

/-- Cross-run relation maintained during the sparse-solve phase of column
`k`: the two states agree on everything the remaining computation can read,
and every factor position either was written identically by both runs or
still holds its initial contents in each. -/
structure ElimRel (n k : Nat) (lp : List Nat) (sig1 sig2 s1 s2 : NumState) : Prop where
  nzlen1 : s1.l_nz.length = n
  nzlen2 : s2.l_nz.length = n
  dlen1 : s1.diag.length = n
  dlen2 : s2.diag.length = n
  ylen1 : s1.y.length = n
  ylen2 : s2.y.length = n
  lilen : s1.l_indices.length = s2.l_indices.length
  ldlen : s1.l_data.length = s2.l_data.length
  yEq : ∀ x, x ≤ k → aget s1.y x = aget s2.y x
  nzEq : ∀ x, x < k → aget s1.l_nz x = aget s2.l_nz x
  diagEq : ∀ x, x ≤ k → aget s1.diag x = aget s2.diag x
  region : ∀ i2, i2 < k → ∀ p, aget lp i2 ≤ p → p < aget lp i2 + aget s1.l_nz i2 →
    aget s1.l_indices p = aget s2.l_indices p ∧ aget s1.l_data p = aget s2.l_data p
  untouched : ∀ p,
    (aget s1.l_indices p = aget s2.l_indices p ∧ aget s1.l_data p = aget s2.l_data p) ∨
    (aget s1.l_indices p = aget sig1.l_indices p ∧
     aget s2.l_indices p = aget sig2.l_indices p ∧
     aget s1.l_data p = aget sig1.l_data p ∧
     aget s2.l_data p = aget sig2.l_data p)

/-- The body of the scatter loop inside `numericElimNode` (lines 133–139),
named so that statements can refer to it. -/
def scatterStep (yi : ℚ) (s : NumState) (p : Nat) : NumState :=
  let yIdx := aget s.l_indices p
  { s with y := aset s.y yIdx (aget s.y yIdx - aget s.l_data p * yi) }

/-- The scatter loop of `numericElimNode` only changes `y`, and two runs
reading identical factor entries perform identical updates on the positions
at or below `k`. -/
theorem scatterFold_det (k : Nat) (yi : ℚ) :
    ∀ (ps : List Nat) (s1 s2 : NumState),
      (∀ p ∈ ps, aget s1.l_indices p = aget s2.l_indices p ∧
        aget s1.l_data p = aget s2.l_data p) →
      (∀ x, x ≤ k → aget s1.y x = aget s2.y x) →
      s1.y.length = s2.y.length →
      (ps.foldl (scatterStep yi) s1).y.length = s1.y.length ∧
      (ps.foldl (scatterStep yi) s2).y.length = s2.y.length ∧
      (∀ x, x ≤ k → aget (ps.foldl (scatterStep yi) s1).y x =
        aget (ps.foldl (scatterStep yi) s2).y x) ∧
      (ps.foldl (scatterStep yi) s1).l_nz = s1.l_nz ∧
      (ps.foldl (scatterStep yi) s1).l_indices = s1.l_indices ∧
      (ps.foldl (scatterStep yi) s1).l_data = s1.l_data ∧
      (ps.foldl (scatterStep yi) s1).diag = s1.diag ∧
      (ps.foldl (scatterStep yi) s2).l_nz = s2.l_nz ∧
      (ps.foldl (scatterStep yi) s2).l_indices = s2.l_indices ∧
      (ps.foldl (scatterStep yi) s2).l_data = s2.l_data ∧
      (ps.foldl (scatterStep yi) s2).diag = s2.diag := by
  intro ps
  induction ps with
  | nil =>
    intro s1 s2 _ hy _
    exact ⟨rfl, rfl, hy, rfl, rfl, rfl, rfl, rfl, rfl, rfl, rfl⟩
  | cons p ps ih =>
    intro s1 s2 hps hy hlen
    simp only [List.foldl_cons]
    have hpv := hps p (List.mem_cons_self p ps)
    have hyIdsEq : aget s1.l_indices p = aget s2.l_indices p := hpv.1
    have hstep : ∀ x, x ≤ k →
        aget (scatterStep yi s1 p).y x = aget (scatterStep yi s2 p).y x := by
      intro x hx
      show aget (aset s1.y (aget s1.l_indices p)
          (aget s1.y (aget s1.l_indices p) - aget s1.l_data p * yi)) x =
        aget (aset s2.y (aget s2.l_indices p)
          (aget s2.y (aget s2.l_indices p) - aget s2.l_data p * yi)) x
      rw [← hyIdsEq, ← hpv.2]
      by_cases hxi : aget s1.l_indices p = x
      · subst hxi
        by_cases hin : aget s1.l_indices p < s1.y.length
        · rw [aget_aset_eq _ _ _ hin, aget_aset_eq _ _ _ (by rw [← hlen]; exact hin),
            hy _ hx]
        · unfold aset
          rw [List.set_eq_of_length_le (by omega),
            List.set_eq_of_length_le (by rw [← hlen]; omega)]
          exact hy _ hx
      · rw [aget_aset_ne _ _ _ _ hxi, aget_aset_ne _ _ _ _ hxi]
        exact hy _ hx
    have hlen' : (scatterStep yi s1 p).y.length = (scatterStep yi s2 p).y.length := by
      show (aset s1.y _ _).length = (aset s2.y _ _).length
      rw [length_aset, length_aset]; exact hlen
    have hps' : ∀ q ∈ ps, aget (scatterStep yi s1 p).l_indices q =
        aget (scatterStep yi s2 p).l_indices q ∧
        aget (scatterStep yi s1 p).l_data q = aget (scatterStep yi s2 p).l_data q :=
      fun q hq => hps q (List.mem_cons_of_mem p hq)
    obtain ⟨a1, a2, a3, a4, a5, a6, a7, a8, a9, a10, a11⟩ :=
      ih (scatterStep yi s1 p) (scatterStep yi s2 p) hps' hstep hlen'
    refine ⟨?_, ?_, a3, ?_, ?_, ?_, ?_, ?_, ?_, ?_, ?_⟩
    · rw [a1]; show (aset s1.y _ _).length = _; rw [length_aset]
    · rw [a2]; show (aset s2.y _ _).length = _; rw [length_aset]
    · rw [a4]; rfl
    · rw [a5]; rfl
    · rw [a6]; rfl
    · rw [a7]; rfl
    · rw [a8]; rfl
    · rw [a9]; rfl
    · rw [a10]; rfl
    · rw [a11]; rfl

/-- Closed form of `numericElimNode`: the same computation with every record
update pushed to the outside and the scatter loop expressed via
`scatterStep`.  Definitionally equal to the original. -/
def elimClosed (k : Nat) (lp : List Nat) (s : NumState) (i : Nat) : NumState :=
  let yi := aget s.y i
  let t := (List.range' (aget lp i) (aget s.l_nz i)).foldl (scatterStep yi)
    { s with y := aset s.y i 0 }
  let l_ki := yi / aget t.diag i
  let p2 := aget lp i + aget s.l_nz i
  { l_nz := aset t.l_nz i (aget t.l_nz i + 1)
    l_indices := aset t.l_indices p2 k
    l_data := aset t.l_data p2 l_ki
    diag := aset t.diag k (aget t.diag k - l_ki * yi)
    y := t.y
    pattern := t.pattern
    flag := t.flag }

theorem numericElimNode_eq_closed (k : Nat) (lp : List Nat) (s : NumState)
    (i : Nat) : numericElimNode k lp s i = elimClosed k lp s i := rfl

theorem aset_oob {α : Type} (l : List α) (i : Nat) (v : α) (h : l.length ≤ i) :
    aset l i v = l := List.set_eq_of_length_le h

/-- Components of `elimClosed` once the scatter frames are known. -/
theorem elimClosed_components (k : Nat) (lp : List Nat) (s t : NumState) (i : Nat)
    (ht : t = (List.range' (aget lp i) (aget s.l_nz i)).foldl
      (scatterStep (aget s.y i)) { s with y := aset s.y i 0 })
    (h4 : t.l_nz = s.l_nz) (h5 : t.l_indices = s.l_indices)
    (h6 : t.l_data = s.l_data) (h7 : t.diag = s.diag) :
    (elimClosed k lp s i).l_nz = aset s.l_nz i (aget s.l_nz i + 1) ∧
    (elimClosed k lp s i).l_indices = aset s.l_indices (aget lp i + aget s.l_nz i) k ∧
    (elimClosed k lp s i).l_data =
      aset s.l_data (aget lp i + aget s.l_nz i) (aget s.y i / aget s.diag i) ∧
    (elimClosed k lp s i).diag =
      aset s.diag k (aget s.diag k - aget s.y i / aget s.diag i * aget s.y i) ∧
    (elimClosed k lp s i).y = t.y := by
  subst ht
  simp only [elimClosed]
  rw [h4, h5, h6, h7]
  exact ⟨rfl, rfl, rfl, rfl, trivial⟩

/-- Two runs in the `ElimRel` relation stay related after eliminating the same
node `i < k`: all reads of the per-node update are determined by the relation,
and the appended factor entry is written identically (or dropped identically)
by both runs. -/
theorem numericElimNode_det (n k : Nat) (lp : List Nat) (sig1 sig2 sA sB : NumState)
    (i : Nat) (hik : i < k) (hkn : k < n)
    (hrel : ElimRel n k lp sig1 sig2 sA sB) :
    ElimRel n k lp sig1 sig2 (numericElimNode k lp sA i) (numericElimNode k lp sB i) := by
  rw [numericElimNode_eq_closed, numericElimNode_eq_closed]
  have hyiEq : aget sA.y i = aget sB.y i := hrel.yEq i (le_of_lt hik)
  have hnziEq : aget sA.l_nz i = aget sB.l_nz i := hrel.nzEq i hik
  have hmem : ∀ p ∈ List.range' (aget lp i) (aget sA.l_nz i),
      aget ({ sA with y := aset sA.y i 0 } : NumState).l_indices p =
        aget ({ sB with y := aset sB.y i 0 } : NumState).l_indices p ∧
      aget ({ sA with y := aset sA.y i 0 } : NumState).l_data p =
        aget ({ sB with y := aset sB.y i 0 } : NumState).l_data p := by
    intro p hp
    rw [List.mem_range'_1] at hp
    exact hrel.region i hik p hp.1 hp.2
  have hy0 : ∀ x, x ≤ k →
      aget ({ sA with y := aset sA.y i 0 } : NumState).y x =
        aget ({ sB with y := aset sB.y i 0 } : NumState).y x := by
    intro x hx
    show aget (aset sA.y i 0) x = aget (aset sB.y i 0) x
    by_cases hxi : i = x
    · subst hxi
      rw [aget_aset_eq _ _ _ (by rw [hrel.ylen1]; omega),
        aget_aset_eq _ _ _ (by rw [hrel.ylen2]; omega)]
    · rw [aget_aset_ne _ _ _ _ hxi, aget_aset_ne _ _ _ _ hxi]
      exact hrel.yEq x hx
  have hlen0 : ({ sA with y := aset sA.y i 0 } : NumState).y.length =
      ({ sB with y := aset sB.y i 0 } : NumState).y.length := by
    show (aset sA.y i 0).length = (aset sB.y i 0).length
    rw [length_aset, length_aset, hrel.ylen1, hrel.ylen2]
  obtain ⟨b1, b2, b3, b4, b5, b6, b7, b8, b9, b10, b11⟩ :=
    scatterFold_det k (aget sA.y i) (List.range' (aget lp i) (aget sA.l_nz i))
      { sA with y := aset sA.y i 0 } { sB with y := aset sB.y i 0 } hmem hy0 hlen0
  obtain ⟨hAnz, hAli, hAld, hAdg, hAy⟩ :=
    elimClosed_components k lp sA _ i rfl b4 b5 b6 b7
  have hTBeq : (List.range' (aget lp i) (aget sA.l_nz i)).foldl
      (scatterStep (aget sA.y i)) { sB with y := aset sB.y i 0 } =
    (List.range' (aget lp i) (aget sB.l_nz i)).foldl
      (scatterStep (aget sB.y i)) { sB with y := aset sB.y i 0 } := by
    rw [hyiEq, hnziEq]
  obtain ⟨hBnz, hBli, hBld, hBdg, hBy⟩ :=
    elimClosed_components k lp sB _ i hTBeq b8 b9 b10 b11
  have hdgi : aget sA.diag i = aget sB.diag i := hrel.diagEq i (le_of_lt hik)
  have hdgk : aget sA.diag k = aget sB.diag k := hrel.diagEq k (le_refl k)
  have hlki : aget sA.y i / aget sA.diag i = aget sB.y i / aget sB.diag i := by
    rw [hyiEq, hdgi]
  rw [← hnziEq] at hBnz hBli hBld
  rw [← hlki] at hBld hBdg
  rw [← hyiEq] at hBdg
  have hclobli : aget (aset sA.l_indices (aget lp i + aget sA.l_nz i) k)
        (aget lp i + aget sA.l_nz i) =
      aget (aset sB.l_indices (aget lp i + aget sA.l_nz i) k)
        (aget lp i + aget sA.l_nz i) := by
    by_cases hin : aget lp i + aget sA.l_nz i < sA.l_indices.length
    · rw [aget_aset_eq _ _ _ hin, aget_aset_eq _ _ _ (by rw [← hrel.lilen]; exact hin)]
    · rw [aset_oob _ _ _ (by omega), aset_oob _ _ _ (by rw [← hrel.lilen]; omega),
        aget_oob _ _ (by omega), aget_oob _ _ (by rw [← hrel.lilen]; omega)]
  have hclobld : aget (aset sA.l_data (aget lp i + aget sA.l_nz i)
        (aget sA.y i / aget sA.diag i)) (aget lp i + aget sA.l_nz i) =
      aget (aset sB.l_data (aget lp i + aget sA.l_nz i)
        (aget sA.y i / aget sA.diag i)) (aget lp i + aget sA.l_nz i) := by
    by_cases hin : aget lp i + aget sA.l_nz i < sA.l_data.length
    · rw [aget_aset_eq _ _ _ hin, aget_aset_eq _ _ _ (by rw [← hrel.ldlen]; exact hin)]
    · rw [aset_oob _ _ _ (by omega), aset_oob _ _ _ (by rw [← hrel.ldlen]; omega),
        aget_oob _ _ (by omega), aget_oob _ _ (by rw [← hrel.ldlen]; omega)]
  refine ⟨?_, ?_, ?_, ?_, ?_, ?_, ?_, ?_, ?_, ?_, ?_, ?_, ?_⟩
  · rw [hAnz, length_aset, hrel.nzlen1]
  · rw [hBnz, length_aset, hrel.nzlen2]
  · rw [hAdg, length_aset, hrel.dlen1]
  · rw [hBdg, length_aset, hrel.dlen2]
  · rw [hAy, b1]
    show (aset sA.y i 0).length = n
    rw [length_aset, hrel.ylen1]
  · rw [hBy, b2]
    show (aset sB.y i 0).length = n
    rw [length_aset, hrel.ylen2]
  · rw [hAli, hBli, length_aset, length_aset, hrel.lilen]
  · rw [hAld, hBld, length_aset, length_aset, hrel.ldlen]
  · intro x hx
    rw [hAy, hBy]
    exact b3 x hx
  · intro x hx
    rw [hAnz, hBnz]
    by_cases hxi : i = x
    · subst hxi
      rw [aget_aset_eq _ _ _ (by rw [hrel.nzlen1]; omega),
        aget_aset_eq _ _ _ (by rw [hrel.nzlen2]; omega)]
    · rw [aget_aset_ne _ _ _ _ hxi, aget_aset_ne _ _ _ _ hxi]
      exact hrel.nzEq x hx
  · intro x hx
    rw [hAdg, hBdg]
    by_cases hxk : k = x
    · subst hxk
      rw [aget_aset_eq _ _ _ (by rw [hrel.dlen1]; omega),
        aget_aset_eq _ _ _ (by rw [hrel.dlen2]; omega), hdgk]
    · rw [aget_aset_ne _ _ _ _ hxk, aget_aset_ne _ _ _ _ hxk]
      exact hrel.diagEq x hx
  · intro i2 hi2 p hp1 hp2
    rw [hAnz] at hp2
    rw [hAli, hBli, hAld, hBld]
    by_cases hppp : aget lp i + aget sA.l_nz i = p
    · subst hppp
      exact ⟨hclobli, hclobld⟩
    · rw [aget_aset_ne _ _ _ _ hppp, aget_aset_ne _ _ _ _ hppp,
        aget_aset_ne _ _ _ _ hppp, aget_aset_ne _ _ _ _ hppp]
      apply hrel.region i2 hi2 p hp1
      by_cases h2i : i = i2
      · subst h2i
        rw [aget_aset_eq _ _ _ (by rw [hrel.nzlen1]; omega)] at hp2
        omega
      · rw [aget_aset_ne _ _ _ _ h2i] at hp2
        exact hp2
  · intro p
    rw [hAli, hBli, hAld, hBld]
    by_cases hppp : aget lp i + aget sA.l_nz i = p
    · subst hppp
      exact Or.inl ⟨hclobli, hclobld⟩
    · rw [aget_aset_ne _ _ _ _ hppp, aget_aset_ne _ _ _ _ hppp,
        aget_aset_ne _ _ _ _ hppp, aget_aset_ne _ _ _ _ hppp]
      exact hrel.untouched p

/-- The initial discovery invariant holds for any state whose own flags serve
as the reference `flag0`. -/
theorem DiscInv_base (n k : Nat) (parents : List Int) (s0 : NumState)
    (hpat : s0.pattern.length = n) (hflag : s0.flag.length = n)
    (hfk : aget s0.flag k = k) :
    DiscInv n k parents s0.flag [] n s0 := by
  have hnil : suffList s0.pattern n n = [] := by
    unfold suffList
    rw [Nat.sub_self]
    rfl
  refine ⟨hpat, hflag, Nat.le_refl n, hfk, ?_, ?_, ?_, ?_, ?_, ?_⟩
  · intro x _
    rfl
  · intro x hx
    rw [hnil] at hx
    simp at hx
  · rw [hnil]
    exact List.nodup_nil
  · intro x hx
    rw [hnil] at hx
    simp at hx
  · intro j hj
    rw [hnil] at hj
    simp at hj
  · intro x
    rw [hnil]
    simp

/-- Cross-run relation maintained during the pattern-discovery phase of
column `k`: equal write cursors, equal discovered tails, and agreement of
flags and accumulated `y` on the positions at or below `k`. -/
structure DiscRel (n k : Nat) (t1 t2 : Nat × NumState) : Prop where
  topEq : t1.1 = t2.1
  suffEq : suffList t1.2.pattern t1.1 n = suffList t2.2.pattern t2.1 n
  flagEq : ∀ x, x ≤ k → aget t1.2.flag x = aget t2.2.flag x
  yEq : ∀ x, x ≤ k → aget t1.2.y x = aget t2.2.y x
  patlen2 : t2.2.pattern.length = n
  flaglen2 : t2.2.flag.length = n
  ylen1 : t1.2.y.length = n
  ylen2 : t2.2.y.length = n

/-- Two related runs stay related after processing the same stored entry:
the frozen-flag walk only depends on the flags in `[i, k]`, where both runs
agree, so both collect the same chain and perform the same writes. -/
theorem numericEntry_det (n k : Nat) (parents : List Int) (flag0 : List Nat)
    (processed : List (Nat × ℚ)) (top1 top2 : Nat) (s1 s2 : NumState)
    (iv : Nat × ℚ) (hk : k < n)
    (hchain : iv.1 < k → chainOk parents k n iv.1 = true)
    (hinv1 : DiscInv n k parents flag0 processed top1 s1)
    (hrel : DiscRel n k (top1, s1) (top2, s2)) :
    DiscRel n k (numericEntry n k parents (top1, s1) iv)
      (numericEntry n k parents (top2, s2) iv) := by
  have htopEq : top1 = top2 := hrel.topEq
  have hsuffEq : suffList s1.pattern top1 n = suffList s2.pattern top2 n := hrel.suffEq
  have hflagEq : ∀ x, x ≤ k → aget s1.flag x = aget s2.flag x := hrel.flagEq
  have hyEq : ∀ x, x ≤ k → aget s1.y x = aget s2.y x := hrel.yEq
  have hpatlen2 : s2.pattern.length = n := hrel.patlen2
  have hflaglen2 : s2.flag.length = n := hrel.flaglen2
  have hylen1 : s1.y.length = n := hrel.ylen1
  have hylen2 : s2.y.length = n := hrel.ylen2
  by_cases hik : iv.1 ≤ k
  case neg =>
    have hres1 : numericEntry n k parents (top1, s1) iv = (top1, s1) := by
      unfold numericEntry
      rw [if_neg hik]
    have hres2 : numericEntry n k parents (top2, s2) iv = (top2, s2) := by
      unfold numericEntry
      rw [if_neg hik]
    rw [hres1, hres2]
    exact hrel
  case pos =>
    have hok : chainOk parents k n iv.1 = true := by
      rcases Nat.lt_or_ge iv.1 k with h | h
      · exact hchain h
      · have hivk : iv.1 = k := by omega
        rw [hivk]
        exact chainOk_self parents k n (by omega)
    have hfk2 : aget s2.flag k = k := by
      rw [← hflagEq k (Nat.le_refl k)]
      exact hinv1.hfk
    -- both runs walk the same chain
    have hcl12 : walkChain parents k s1.flag n iv.1 =
        walkChain parents k s2.flag n iv.1 :=
      walkChain_congr parents k s1.flag s2.flag hinv1.hfk n iv.1 hok
        (fun x hx1 hx2 => hflagEq x hx2)
    obtain ⟨cl, hcl⟩ : ∃ l, l = walkChain parents k s1.flag n iv.1 := ⟨_, rfl⟩
    -- room bound for run 1, exactly as in the invariant preservation proof
    have hclnd : cl.Nodup := by
      rw [hcl]; exact walkChain_nodup parents k s1.flag hinv1.hfk n iv.1 hok
    have hclelem : ∀ x ∈ cl, x < k ∧ x < (aget parents x).toNat ∧
        (aget parents x).toNat ≤ k ∧ aget s1.flag x ≠ k := by
      rw [hcl]; exact walkChain_elem parents k s1.flag hinv1.hfk n iv.1 hok
    obtain ⟨oldL, holdL⟩ : ∃ l, l = suffList s1.pattern top1 n := ⟨_, rfl⟩
    have holdlen : oldL.length = n - top1 := by
      rw [holdL]; exact suffList_length s1.pattern top1 n
    have hOmarked : ∀ x ∈ oldL, aget s1.flag x = k := by
      rw [holdL]; exact hinv1.hmarked
    have hOnd : oldL.Nodup := by rw [holdL]; exact hinv1.hnd
    have hOelem : ∀ x ∈ oldL, x < k ∧ x < (aget parents x).toNat ∧
        (aget parents x).toNat ≤ k := by
      rw [holdL]; exact hinv1.helem
    have hdisj : ∀ x ∈ cl, x ∉ oldL :=
      fun x hx hmem => (hclelem x hx).2.2.2 (hOmarked x hmem)
    have hndnew : (cl ++ oldL).Nodup := by
      rw [List.nodup_append]; exact ⟨hclnd, hOnd, hdisj⟩
    have hltnew : ∀ x ∈ cl ++ oldL, x < k := by
      intro x hx
      rcases List.mem_append.mp hx with hm | hm
      · exact (hclelem x hm).1
      · exact (hOelem x hm).1
    have hTop : top1 ≤ n := hinv1.htop
    have hlen_le : cl.length + (n - top1) ≤ k := by
      have hcard := nodup_lt_length_le (cl ++ oldL) hndnew k hltnew
      rw [List.length_append, holdlen] at hcard
      exact hcard
    have hfit1 : (walkChain parents k s1.flag n iv.1).length ≤ top1 := by
      rw [← hcl]; omega
    have hfit2 : (walkChain parents k s2.flag n iv.1).length ≤ top2 := by
      rw [← hcl12, ← htopEq]
      exact hfit1
    obtain ⟨e1top, e1y, e1flag, e1patlen, e1suff⟩ :=
      numericEntry_closed n k parents top1 s1 iv hik hok hinv1.hfk hinv1.hpat
        hinv1.htop hfit1
    obtain ⟨e2top, e2y, e2flag, e2patlen, e2suff⟩ :=
      numericEntry_closed n k parents top2 s2 iv hik hok hfk2 hpatlen2
        (htopEq ▸ hinv1.htop) hfit2
    refine ⟨?_, ?_, ?_, ?_, ?_, ?_, ?_, ?_⟩
    · rw [e1top, e2top, ← hcl12, htopEq]
    · rw [e1suff, e2suff, ← hcl12, hsuffEq]
    · intro x hx
      rw [e1flag, e2flag, ← hcl12]
      by_cases hmemcl : x ∈ walkChain parents k s1.flag n iv.1
      · rw [aget_setAll_mem _ _ _ _ hmemcl (by rw [hinv1.hflag]; omega),
          aget_setAll_mem _ _ _ _ hmemcl (by rw [hflaglen2]; omega)]
      · rw [aget_setAll_not_mem _ _ _ _ hmemcl, aget_setAll_not_mem _ _ _ _ hmemcl]
        exact hflagEq x hx
    · intro x hx
      rw [e1y, e2y]
      by_cases hxi : iv.1 = x
      · subst hxi
        rw [aget_aset_eq _ _ _ (by rw [hylen1]; omega),
          aget_aset_eq _ _ _ (by rw [hylen2]; omega), hyEq iv.1 hik]
      · rw [aget_aset_ne _ _ _ _ hxi, aget_aset_ne _ _ _ _ hxi]
        exact hyEq x hx
    · exact e2patlen
    · rw [e2flag, setAll_length]
      exact hflaglen2
    · rw [e1y]
      show (aset s1.y iv.1 (aget s1.y iv.1 + iv.2)).length = n
      rw [length_aset]
      exact hylen1
    · rw [e2y]
      show (aset s2.y iv.1 (aget s2.y iv.1 + iv.2)).length = n
      rw [length_aset]
      exact hylen2

/-- The cross-run discovery relation is preserved along the whole entry fold,
threading the run-1 invariant for the room bounds. -/
theorem numericEntries_det (n k : Nat) (parents : List Int) (flag0 : List Nat)
    (hk : k < n) (hflag0 : ∀ x, x < k → aget flag0 x ≠ k) :
    ∀ (l pref : List (Nat × ℚ)) (t1 t2 : Nat × NumState),
      (∀ iv ∈ l, iv.1 < k → chainOk parents k n iv.1 = true) →
      DiscInv n k parents flag0 pref t1.1 t1.2 →
      DiscRel n k t1 t2 →
      DiscRel n k (l.foldl (numericEntry n k parents) t1)
        (l.foldl (numericEntry n k parents) t2) := by
  intro l
  induction l with
  | nil =>
    intro pref t1 t2 _ _ hrel
    exact hrel
  | cons iv l ih =>
    intro pref t1 t2 hchain hinv hrel
    obtain ⟨top1, s1⟩ := t1
    obtain ⟨top2, s2⟩ := t2
    have hstep := numericEntry_det n k parents flag0 pref top1 top2 s1 s2 iv hk
      (hchain iv (List.mem_cons_self iv l)) hinv hrel
    have hinv' := numericEntry_inv n k parents flag0 pref top1 s1 iv hk hflag0
      (hchain iv (List.mem_cons_self iv l)) hinv
    rw [List.foldl_cons, List.foldl_cons]
    exact ih (pref ++ [iv]) _ _
      (fun iv' h => hchain iv' (List.mem_cons_of_mem iv h)) hinv' hstep

/-- The discovery phase never touches the factor buffers: it only resets
`l_nz[k]` and leaves `l_indices`, `l_data`, `diag` alone. -/
theorem numericDiscover_frame (n k : Nat) (parents : List Int)
    (cols : Nat → List (Nat × ℚ)) (s : NumState) :
    (numericDiscover n k parents cols s).2.l_nz = aset s.l_nz k 0 ∧
    (numericDiscover n k parents cols s).2.l_indices = s.l_indices ∧
    (numericDiscover n k parents cols s).2.l_data = s.l_data ∧
    (numericDiscover n k parents cols s).2.diag = s.diag := by
  obtain ⟨s0, hs0⟩ : ∃ t, t =
      ({ s with flag := aset s.flag k k, y := aset s.y k 0, l_nz := aset s.l_nz k 0 } : NumState) := ⟨_, rfl⟩
  have hdisc : numericDiscover n k parents cols s =
      (cols k).foldl (numericEntry n k parents) (n, s0) := by
    rw [hs0]
    rfl
  rw [hdisc]
  refine foldl_inv (fun z : Nat × NumState =>
    z.2.l_nz = aset s.l_nz k 0 ∧ z.2.l_indices = s.l_indices ∧
    z.2.l_data = s.l_data ∧ z.2.diag = s.diag) _ _ _ ?_ ?_
  · rw [hs0]
    exact ⟨rfl, rfl, rfl, rfl⟩
  · intro z iv _ hz
    obtain ⟨f1, f2, f3, f4⟩ := numericEntry_frame n k parents z iv
    exact ⟨f1.trans hz.1, f2.trans hz.2.1, f3.trans hz.2.2.1, f4.trans hz.2.2.2⟩

/-- Two runs that agree below `k` on flags and accumulated values perform
identical pattern discovery at column `k`. -/
theorem numericDiscover_det (n k : Nat) (parents : List Int)
    (cols : Nat → List (Nat × ℚ)) (s1 s2 : NumState) (hk : k < n)
    (hpat1 : s1.pattern.length = n) (hflag1 : s1.flag.length = n)
    (hy1 : s1.y.length = n)
    (hpat2 : s2.pattern.length = n) (hflag2 : s2.flag.length = n)
    (hy2 : s2.y.length = n)
    (hfl1 : ∀ x, x < k → aget s1.flag x ≠ k)
    (hflagEq : ∀ x, x < k → aget s1.flag x = aget s2.flag x)
    (hyEq : ∀ x, x < k → aget s1.y x = aget s2.y x)
    (hchain : ∀ iv ∈ cols k, iv.1 < k → chainOk parents k n iv.1 = true) :
    DiscRel n k (numericDiscover n k parents cols s1)
      (numericDiscover n k parents cols s2) := by
  obtain ⟨s01, hs01⟩ : ∃ t, t =
      ({ s1 with flag := aset s1.flag k k, y := aset s1.y k 0, l_nz := aset s1.l_nz k 0 } : NumState) := ⟨_, rfl⟩
  obtain ⟨s02, hs02⟩ : ∃ t, t =
      ({ s2 with flag := aset s2.flag k k, y := aset s2.y k 0, l_nz := aset s2.l_nz k 0 } : NumState) := ⟨_, rfl⟩
  have hd1 : numericDiscover n k parents cols s1 =
      (cols k).foldl (numericEntry n k parents) (n, s01) := by
    rw [hs01]
    rfl
  have hd2 : numericDiscover n k parents cols s2 =
      (cols k).foldl (numericEntry n k parents) (n, s02) := by
    rw [hs02]
    rfl
  rw [hd1, hd2]
  have h01pat : s01.pattern = s1.pattern := by rw [hs01]
  have h01flag : s01.flag = aset s1.flag k k := by rw [hs01]
  have h01y : s01.y = aset s1.y k 0 := by rw [hs01]
  have h02pat : s02.pattern = s2.pattern := by rw [hs02]
  have h02flag : s02.flag = aset s2.flag k k := by rw [hs02]
  have h02y : s02.y = aset s2.y k 0 := by rw [hs02]
  have hbase1 : DiscInv n k parents s01.flag [] n s01 :=
    DiscInv_base n k parents s01 (by rw [h01pat]; exact hpat1)
      (by rw [h01flag, length_aset]; exact hflag1)
      (by rw [h01flag]; exact aget_aset_eq _ _ _ (by rw [hflag1]; exact hk))
  have hflag01 : ∀ x, x < k → aget s01.flag x ≠ k := by
    intro x hx
    rw [h01flag, aget_aset_ne _ _ _ _ (by omega)]
    exact hfl1 x hx
  have hnil1 : suffList s01.pattern n n = [] := by
    unfold suffList
    rw [Nat.sub_self]
    rfl
  have hnil2 : suffList s02.pattern n n = [] := by
    unfold suffList
    rw [Nat.sub_self]
    rfl
  have hbrel : DiscRel n k (n, s01) (n, s02) := by
    refine ⟨rfl, ?_, ?_, ?_, ?_, ?_, ?_, ?_⟩
    · show suffList s01.pattern n n = suffList s02.pattern n n
      rw [hnil1, hnil2]
    · intro x hx
      show aget s01.flag x = aget s02.flag x
      rw [h01flag, h02flag]
      by_cases hxk : k = x
      · subst hxk
        rw [aget_aset_eq _ _ _ (by rw [hflag1]; exact hk),
          aget_aset_eq _ _ _ (by rw [hflag2]; exact hk)]
      · rw [aget_aset_ne _ _ _ _ hxk, aget_aset_ne _ _ _ _ hxk]
        exact hflagEq x (by omega)
    · intro x hx
      show aget s01.y x = aget s02.y x
      rw [h01y, h02y]
      by_cases hxk : k = x
      · subst hxk
        rw [aget_aset_eq _ _ _ (by rw [hy1]; exact hk),
          aget_aset_eq _ _ _ (by rw [hy2]; exact hk)]
      · rw [aget_aset_ne _ _ _ _ hxk, aget_aset_ne _ _ _ _ hxk]
        exact hyEq x (by omega)
    · show s02.pattern.length = n
      rw [h02pat]
      exact hpat2
    · show s02.flag.length = n
      rw [h02flag, length_aset]
      exact hflag2
    · show s01.y.length = n
      rw [h01y, length_aset]
      exact hy1
    · show s02.y.length = n
      rw [h02y, length_aset]
      exact hy2
  exact numericEntries_det n k parents s01.flag hk hflag01 (cols k) [] (n, s01)
    (n, s02) hchain hbase1 hbrel

/-- The scatter loop leaves every component but `y` unchanged. -/
theorem scatterFold_frame (yi : ℚ) (ps : List Nat) (s : NumState) :
    (ps.foldl (scatterStep yi) s).l_nz = s.l_nz ∧
    (ps.foldl (scatterStep yi) s).l_indices = s.l_indices ∧
    (ps.foldl (scatterStep yi) s).l_data = s.l_data ∧
    (ps.foldl (scatterStep yi) s).diag = s.diag := by
  refine foldl_inv (fun z : NumState => z.l_nz = s.l_nz ∧ z.l_indices = s.l_indices ∧
    z.l_data = s.l_data ∧ z.diag = s.diag) _ _ _ ⟨rfl, rfl, rfl, rfl⟩ ?_
  intro z p _ hz
  exact ⟨hz.1, hz.2.1, hz.2.2.1, hz.2.2.2⟩

/-- `numericElimNode` bumps `l_nz[i]` by one and nothing else in `l_nz`. -/
theorem numericElimNode_nz_closed (k : Nat) (lp : List Nat) (s : NumState)
    (i : Nat) :
    (numericElimNode k lp s i).l_nz = aset s.l_nz i (aget s.l_nz i + 1) := by
  rw [numericElimNode_eq_closed]
  obtain ⟨f1, f2, f3, f4⟩ := scatterFold_frame (aget s.y i)
    (List.range' (aget lp i) (aget s.l_nz i)) { s with y := aset s.y i 0 }
  exact (elimClosed_components k lp s _ i rfl f1 f2 f3 f4).1

/-- The elimination fold over nodes `< k` does not change `l_nz` at or
above `k`. -/
theorem elimFold_nz_ge (k : Nat) (lp : List Nat) :
    ∀ (L : List Nat) (s : NumState), (∀ i ∈ L, i < k) →
      ∀ x, k ≤ x → aget (L.foldl (numericElimNode k lp) s).l_nz x = aget s.l_nz x := by
  intro L
  induction L with
  | nil =>
    intro s _ x _
    rfl
  | cons i L ih =>
    intro s hL x hx
    rw [List.foldl_cons]
    rw [ih _ (fun j hj => hL j (List.mem_cons_of_mem i hj)) x hx]
    rw [numericElimNode_nz_closed]
    exact aget_aset_ne _ _ _ _ (by have := hL i (List.mem_cons_self i L); omega)

/-- The elimination fold leaves `pattern` and `flag` unchanged. -/
theorem elimFold_frame (k : Nat) (lp : List Nat) (L : List Nat) (s : NumState) :
    (L.foldl (numericElimNode k lp) s).pattern = s.pattern ∧
    (L.foldl (numericElimNode k lp) s).flag = s.flag := by
  refine foldl_inv (fun z : NumState => z.pattern = s.pattern ∧ z.flag = s.flag)
    _ _ _ ⟨rfl, rfl⟩ ?_
  intro z i _ hz
  obtain ⟨p1, p2⟩ := numericElimNode_frame k lp z i
  exact ⟨p1.trans hz.1, p2.trans hz.2⟩

/-- Two related runs stay related across the whole sparse triangular solve of
column `k`, provided every eliminated node lies strictly below `k`. -/
theorem elimFold_det (n k : Nat) (lp : List Nat) (sig1 sig2 : NumState)
    (hkn : k < n) :
    ∀ (L : List Nat) (sA sB : NumState), (∀ i ∈ L, i < k) →
      ElimRel n k lp sig1 sig2 sA sB →
      ElimRel n k lp sig1 sig2 (L.foldl (numericElimNode k lp) sA)
        (L.foldl (numericElimNode k lp) sB) := by
  intro L
  induction L with
  | nil =>
    intro sA sB _ h
    exact h
  | cons i L ih =>
    intro sA sB hL hrel
    rw [List.foldl_cons, List.foldl_cons]
    exact ih _ _ (fun j hj => hL j (List.mem_cons_of_mem i hj))
      (numericElimNode_det n k lp sig1 sig2 sA sB i (hL i (List.mem_cons_self i L))
        hkn hrel)

/-- Cross-run relation at a column boundary `k`: both runs have well-sized
workspaces, agree on everything columns `k..n` can read (flags, accumulated
values, counts, diagonal, and the already-written factor regions), and every
factor position is either identical across runs or still untouched in each
run since its respective initial state. -/
structure NumRel (n k : Nat) (lp : List Nat) (sig1 sig2 s1 s2 : NumState) : Prop where
  patlen1 : s1.pattern.length = n
  patlen2 : s2.pattern.length = n
  flaglen1 : s1.flag.length = n
  flaglen2 : s2.flag.length = n
  nzlen1 : s1.l_nz.length = n
  nzlen2 : s2.l_nz.length = n
  dlen1 : s1.diag.length = n
  dlen2 : s2.diag.length = n
  ylen1 : s1.y.length = n
  ylen2 : s2.y.length = n
  lilen : s1.l_indices.length = s2.l_indices.length
  ldlen : s1.l_data.length = s2.l_data.length
  flagEq : ∀ x, x < k → aget s1.flag x = aget s2.flag x
  flagLt1 : ∀ x, x < k → aget s1.flag x < k
  yEq : ∀ x, x < k → aget s1.y x = aget s2.y x
  nzEq : ∀ x, x < k → aget s1.l_nz x = aget s2.l_nz x
  diagEq : ∀ x, x < k → aget s1.diag x = aget s2.diag x
  region : ∀ i2, i2 < k → ∀ p, aget lp i2 ≤ p → p < aget lp i2 + aget s1.l_nz i2 →
    aget s1.l_indices p = aget s2.l_indices p ∧ aget s1.l_data p = aget s2.l_data p
  untouched : ∀ p,
    (aget s1.l_indices p = aget s2.l_indices p ∧ aget s1.l_data p = aget s2.l_data p) ∨
    (aget s1.l_indices p = aget sig1.l_indices p ∧
     aget s2.l_indices p = aget sig2.l_indices p ∧
     aget s1.l_data p = aget sig1.l_data p ∧
     aget s2.l_data p = aget sig2.l_data p)

/-- Two runs related at the boundary of column `k` process column `k`
identically: the relation advances to boundary `k + 1` and the pivot
`diag[k]` comes out equal, so both runs take the same singularity branch. -/
theorem numericCol_det (n k : Nat) (parents : List Int) (lp : List Nat)
    (cols : Nat → List (Nat × ℚ)) (sig1 sig2 sA sB : NumState) (hk : k < n)
    (hchain : ∀ iv ∈ cols k, iv.1 < k → chainOk parents k n iv.1 = true)
    (hrel : NumRel n k lp sig1 sig2 sA sB) :
    NumRel n (k + 1) lp sig1 sig2 (numericCol n k parents lp cols sA)
      (numericCol n k parents lp cols sB) ∧
    aget (numericCol n k parents lp cols sA).diag k =
      aget (numericCol n k parents lp cols sB).diag k := by
  have hfl1 : ∀ x, x < k → aget sA.flag x ≠ k := by
    intro x hx
    have := hrel.flagLt1 x hx
    omega
  have hdet := numericDiscover_det n k parents cols sA sB hk hrel.patlen1
    hrel.flaglen1 hrel.ylen1 hrel.patlen2 hrel.flaglen2 hrel.ylen2 hfl1
    hrel.flagEq hrel.yEq hchain
  have hinv := numericDiscover_inv n k parents cols sA hk hrel.patlen1
    hrel.flaglen1 hfl1 hchain
  obtain ⟨fA1, fA2, fA3, fA4⟩ := numericDiscover_frame n k parents cols sA
  obtain ⟨fB1, fB2, fB3, fB4⟩ := numericDiscover_frame n k parents cols sB
  obtain ⟨dA, hdA⟩ : ∃ t, t = numericDiscover n k parents cols sA := ⟨_, rfl⟩
  obtain ⟨dB, hdB⟩ : ∃ t, t = numericDiscover n k parents cols sB := ⟨_, rfl⟩
  rw [← hdA] at hdet hinv fA1 fA2 fA3 fA4
  rw [← hdB] at hdet fB1 fB2 fB3 fB4
  have hdtopEq : dA.1 = dB.1 := hdet.topEq
  have hdsuffEq : suffList dA.2.pattern dA.1 n = suffList dB.2.pattern dB.1 n :=
    hdet.suffEq
  have hdflagEq : ∀ x, x ≤ k → aget dA.2.flag x = aget dB.2.flag x := hdet.flagEq
  have hdyEq : ∀ x, x ≤ k → aget dA.2.y x = aget dB.2.y x := hdet.yEq
  have hdylen1 : dA.2.y.length = n := hdet.ylen1
  have hdylen2 : dB.2.y.length = n := hdet.ylen2
  have hdpat2 : dB.2.pattern.length = n := hdet.patlen2
  have hdflag2 : dB.2.flag.length = n := hdet.flaglen2
  have hcolA : numericCol n k parents lp cols sA =
      (suffList dA.2.pattern dA.1 n).foldl (numericElimNode k lp)
        ({ dA.2 with diag := aset dA.2.diag k (aget dA.2.y k), y := aset dA.2.y k 0 } : NumState) := by
    rw [hdA]
    rfl
  have hcolB : numericCol n k parents lp cols sB =
      (suffList dB.2.pattern dB.1 n).foldl (numericElimNode k lp)
        ({ dB.2 with diag := aset dB.2.diag k (aget dB.2.y k), y := aset dB.2.y k 0 } : NumState) := by
    rw [hdB]
    rfl
  rw [← hdsuffEq] at hcolB
  obtain ⟨SA3, hSA3⟩ : ∃ t, t =
      ({ dA.2 with diag := aset dA.2.diag k (aget dA.2.y k), y := aset dA.2.y k 0 } : NumState) :=
    ⟨_, rfl⟩
  obtain ⟨SB3, hSB3⟩ : ∃ t, t =
      ({ dB.2 with diag := aset dB.2.diag k (aget dB.2.y k), y := aset dB.2.y k 0 } : NumState) :=
    ⟨_, rfl⟩
  rw [← hSA3] at hcolA
  rw [← hSB3] at hcolB
  have hSA3nz : SA3.l_nz = aset sA.l_nz k 0 := by rw [hSA3]; exact fA1
  have hSB3nz : SB3.l_nz = aset sB.l_nz k 0 := by rw [hSB3]; exact fB1
  have hSA3li : SA3.l_indices = sA.l_indices := by rw [hSA3]; exact fA2
  have hSB3li : SB3.l_indices = sB.l_indices := by rw [hSB3]; exact fB2
  have hSA3ld : SA3.l_data = sA.l_data := by rw [hSA3]; exact fA3
  have hSB3ld : SB3.l_data = sB.l_data := by rw [hSB3]; exact fB3
  have hSA3dg : SA3.diag = aset dA.2.diag k (aget dA.2.y k) := by rw [hSA3]
  have hSB3dg : SB3.diag = aset dB.2.diag k (aget dB.2.y k) := by rw [hSB3]
  have hSA3y : SA3.y = aset dA.2.y k 0 := by rw [hSA3]
  have hSB3y : SB3.y = aset dB.2.y k 0 := by rw [hSB3]
  have hSA3pat : SA3.pattern = dA.2.pattern := by rw [hSA3]
  have hSB3pat : SB3.pattern = dB.2.pattern := by rw [hSB3]
  have hSA3fl : SA3.flag = dA.2.flag := by rw [hSA3]
  have hSB3fl : SB3.flag = dB.2.flag := by rw [hSB3]
  have hdAdgl : dA.2.diag.length = n := by rw [fA4]; exact hrel.dlen1
  have hdBdgl : dB.2.diag.length = n := by rw [fB4]; exact hrel.dlen2
  have helimrel : ElimRel n k lp sig1 sig2 SA3 SB3 := by
    refine ⟨?_, ?_, ?_, ?_, ?_, ?_, ?_, ?_, ?_, ?_, ?_, ?_, ?_⟩
    · rw [hSA3nz, length_aset, hrel.nzlen1]
    · rw [hSB3nz, length_aset, hrel.nzlen2]
    · rw [hSA3dg, length_aset, hdAdgl]
    · rw [hSB3dg, length_aset, hdBdgl]
    · rw [hSA3y, length_aset, hdylen1]
    · rw [hSB3y, length_aset, hdylen2]
    · rw [hSA3li, hSB3li, hrel.lilen]
    · rw [hSA3ld, hSB3ld, hrel.ldlen]
    · intro x hx
      rw [hSA3y, hSB3y]
      by_cases hxk : k = x
      · subst hxk
        rw [aget_aset_eq _ _ _ (by rw [hdylen1]; exact hk),
          aget_aset_eq _ _ _ (by rw [hdylen2]; exact hk)]
      · rw [aget_aset_ne _ _ _ _ hxk, aget_aset_ne _ _ _ _ hxk]
        exact hdyEq x hx
    · intro x hx
      rw [hSA3nz, hSB3nz, aget_aset_ne _ _ _ _ (by omega),
        aget_aset_ne _ _ _ _ (by omega)]
      exact hrel.nzEq x hx
    · intro x hx
      rw [hSA3dg, hSB3dg]
      by_cases hxk : k = x
      · subst hxk
        rw [aget_aset_eq _ _ _ (by rw [hdAdgl]; exact hk),
          aget_aset_eq _ _ _ (by rw [hdBdgl]; exact hk)]
        exact hdyEq k (Nat.le_refl k)
      · rw [aget_aset_ne _ _ _ _ hxk, aget_aset_ne _ _ _ _ hxk, fA4, fB4]
        exact hrel.diagEq x (by omega)
    · intro i2 hi2 p hp1 hp2
      rw [hSA3nz, aget_aset_ne _ _ _ _ (by omega)] at hp2
      rw [hSA3li, hSB3li, hSA3ld, hSB3ld]
      exact hrel.region i2 hi2 p hp1 hp2
    · intro p
      rw [hSA3li, hSB3li, hSA3ld, hSB3ld]
      exact hrel.untouched p
  have hLlt : ∀ i ∈ suffList dA.2.pattern dA.1 n, i < k :=
    fun i hi => (hinv.helem i hi).1
  have hfinal := elimFold_det n k lp sig1 sig2 hk
    (suffList dA.2.pattern dA.1 n) SA3 SB3 hLlt helimrel
  obtain ⟨hfrA1, hfrA2⟩ := elimFold_frame k lp (suffList dA.2.pattern dA.1 n) SA3
  obtain ⟨hfrB1, hfrB2⟩ := elimFold_frame k lp (suffList dA.2.pattern dA.1 n) SB3
  have hnzkA : aget ((suffList dA.2.pattern dA.1 n).foldl (numericElimNode k lp) SA3).l_nz k = 0 := by
    rw [elimFold_nz_ge k lp _ SA3 hLlt k (Nat.le_refl k), hSA3nz]
    exact aget_aset_eq _ _ _ (by rw [hrel.nzlen1]; exact hk)
  have hnzkB : aget ((suffList dA.2.pattern dA.1 n).foldl (numericElimNode k lp) SB3).l_nz k = 0 := by
    rw [elimFold_nz_ge k lp _ SB3 hLlt k (Nat.le_refl k), hSB3nz]
    exact aget_aset_eq _ _ _ (by rw [hrel.nzlen2]; exact hk)
  rw [hcolA, hcolB]
  constructor
  · refine ⟨?_, ?_, ?_, ?_, hfinal.nzlen1, hfinal.nzlen2, hfinal.dlen1,
      hfinal.dlen2, hfinal.ylen1, hfinal.ylen2, hfinal.lilen, hfinal.ldlen,
      ?_, ?_, ?_, ?_, ?_, ?_, hfinal.untouched⟩
    · rw [hfrA1, hSA3pat]
      exact hinv.hpat
    · rw [hfrB1, hSB3pat]
      exact hdpat2
    · rw [hfrA2, hSA3fl]
      exact hinv.hflag
    · rw [hfrB2, hSB3fl]
      exact hdflag2
    · intro x hx
      rw [hfrA2, hfrB2, hSA3fl, hSB3fl]
      exact hdflagEq x (by omega)
    · intro x hx
      rw [hfrA2, hSA3fl]
      by_cases hmem : x ∈ suffList dA.2.pattern dA.1 n
      · have := hinv.hmarked x hmem
        omega
      · have hfr := hinv.hframe x hmem
        rw [hfr]
        by_cases hxk : k = x
        · subst hxk
          rw [aget_aset_eq _ _ _ (by rw [hrel.flaglen1]; exact hk)]
          omega
        · rw [aget_aset_ne _ _ _ _ hxk]
          have := hrel.flagLt1 x (by omega)
          omega
    · intro x hx
      exact hfinal.yEq x (by omega)
    · intro x hx
      by_cases hxk : x = k
      · subst hxk
        rw [hnzkA, hnzkB]
      · exact hfinal.nzEq x (by omega)
    · intro x hx
      exact hfinal.diagEq x (by omega)
    · intro i2 hi2 p hp1 hp2
      by_cases h2k : i2 = k
      · subst h2k
        rw [hnzkA] at hp2
        omega
      · exact hfinal.region i2 (by omega) p hp1 hp2
  · exact hfinal.diagEq k (Nat.le_refl k)

/-- One elimination node preserves the factor buffer lengths. -/
theorem numericElimNode_lens (k : Nat) (lp : List Nat) (s : NumState) (i : Nat) :
    (numericElimNode k lp s i).l_indices.length = s.l_indices.length ∧
    (numericElimNode k lp s i).l_data.length = s.l_data.length := by
  rw [numericElimNode_eq_closed]
  obtain ⟨f1, f2, f3, f4⟩ := scatterFold_frame (aget s.y i)
    (List.range' (aget lp i) (aget s.l_nz i)) { s with y := aset s.y i 0 }
  obtain ⟨_, h2, h3, _, _⟩ := elimClosed_components k lp s _ i rfl f1 f2 f3 f4
  rw [h2, h3, length_aset, length_aset]
  exact ⟨rfl, rfl⟩

/-- The elimination fold preserves the factor buffer lengths. -/
theorem elimFold_lens (k : Nat) (lp : List Nat) (L : List Nat) (s : NumState) :
    (L.foldl (numericElimNode k lp) s).l_indices.length = s.l_indices.length ∧
    (L.foldl (numericElimNode k lp) s).l_data.length = s.l_data.length := by
  refine foldl_inv (fun z : NumState => z.l_indices.length = s.l_indices.length ∧
    z.l_data.length = s.l_data.length) _ _ _ ⟨rfl, rfl⟩ ?_
  intro z i _ hz
  obtain ⟨h1, h2⟩ := numericElimNode_lens k lp z i
  exact ⟨h1.trans hz.1, h2.trans hz.2⟩

/-- One numeric column preserves the factor buffer lengths. -/
theorem numericCol_lens (n k : Nat) (parents : List Int) (lp : List Nat)
    (cols : Nat → List (Nat × ℚ)) (s : NumState) :
    (numericCol n k parents lp cols s).l_indices.length = s.l_indices.length ∧
    (numericCol n k parents lp cols s).l_data.length = s.l_data.length := by
  obtain ⟨d, hd⟩ : ∃ t, t = numericDiscover n k parents cols s := ⟨_, rfl⟩
  obtain ⟨_, f2, f3, _⟩ := numericDiscover_frame n k parents cols s
  rw [← hd] at f2 f3
  have hcol : numericCol n k parents lp cols s =
      (suffList d.2.pattern d.1 n).foldl (numericElimNode k lp)
        ({ d.2 with diag := aset d.2.diag k (aget d.2.y k), y := aset d.2.y k 0 } : NumState) := by
    rw [hd]
    rfl
  rw [hcol]
  obtain ⟨h1, h2⟩ := elimFold_lens k lp (suffList d.2.pattern d.1 n)
    ({ d.2 with diag := aset d.2.diag k (aget d.2.y k), y := aset d.2.y k 0 } : NumState)
  constructor
  · rw [h1]
    show d.2.l_indices.length = s.l_indices.length
    rw [f2]
  · rw [h2]
    show d.2.l_data.length = s.l_data.length
    rw [f3]

/-- A successful numeric run preserves the factor buffer lengths. -/
theorem ldl_numeric_upto_lens (n : Nat) (parents : List Int) (lp : List Nat)
    (cols : Nat → List (Nat × ℚ)) :
    ∀ (mm : Nat) (s t : NumState),
      ldl_numeric_upto n parents lp cols s mm = some t →
      t.l_indices.length = s.l_indices.length ∧
      t.l_data.length = s.l_data.length := by
  intro mm
  induction mm with
  | zero =>
    intro s t h
    rw [ldl_numeric_upto_zero] at h
    obtain rfl := Option.some.inj h
    exact ⟨rfl, rfl⟩
  | succ mm ih =>
    intro s t h
    rw [ldl_numeric_upto_succ] at h
    cases hu : ldl_numeric_upto n parents lp cols s mm with
    | none =>
      rw [hu] at h
      exact absurd h (by simp)
    | some u =>
      rw [hu, Option.some_bind] at h
      simp only [numericColChecked] at h
      by_cases hz : aget (numericCol n mm parents lp cols u).diag mm = 0
      · rw [if_pos hz] at h
        exact absurd h (by simp)
      · rw [if_neg hz] at h
        obtain rfl := Option.some.inj h
        obtain ⟨c1, c2⟩ := numericCol_lens n mm parents lp cols u
        obtain ⟨i1, i2⟩ := ih s u hu
        exact ⟨c1.trans i1, c2.trans i2⟩

/-- Buffers of equal length with pointwise-equal reads are equal. -/
theorem aget_ext {α : Type} [OfNat α 0] (l1 l2 : List α)
    (hlen : l1.length = l2.length)
    (h : ∀ x, x < l1.length → aget l1 x = aget l2 x) : l1 = l2 := by
  apply List.ext_getElem hlen
  intro i h1 h2
  have hx := h i h1
  unfold aget at hx
  rwa [List.getD_eq_getElem l1 0 h1, List.getD_eq_getElem l2 0 h2] at hx

/-- Run-level determinism: if the first run succeeds through `mm` columns
then a related second run also succeeds through them, and the two final
states are related at boundary `mm`. -/
theorem ldl_numeric_upto_det (n : Nat) (parents : List Int) (lp : List Nat)
    (cols : Nat → List (Nat × ℚ)) (sig1 sig2 : NumState)
    (hchains : ∀ k, k < n → ∀ iv ∈ cols k, iv.1 < k →
      chainOk parents k n iv.1 = true) :
    ∀ mm, mm ≤ n → ∀ t1, ldl_numeric_upto n parents lp cols sig1 mm = some t1 →
      NumRel n 0 lp sig1 sig2 sig1 sig2 →
      ∃ t2, ldl_numeric_upto n parents lp cols sig2 mm = some t2 ∧
        NumRel n mm lp sig1 sig2 t1 t2 := by
  intro mm
  induction mm with
  | zero =>
    intro _ t1 h1 h0
    rw [ldl_numeric_upto_zero] at h1
    obtain rfl := Option.some.inj h1
    exact ⟨sig2, ldl_numeric_upto_zero n parents lp cols sig2, h0⟩
  | succ mm ih =>
    intro hm t1 h1 h0
    rw [ldl_numeric_upto_succ] at h1
    cases hu : ldl_numeric_upto n parents lp cols sig1 mm with
    | none =>
      rw [hu] at h1
      exact absurd h1 (by simp)
    | some u1 =>
      rw [hu, Option.some_bind] at h1
      obtain ⟨u2, hu2, hrelm⟩ := ih (by omega) u1 hu h0
      have hcd := numericCol_det n mm parents lp cols sig1 sig2 u1 u2 (by omega)
        (hchains mm (by omega)) hrelm
      simp only [numericColChecked] at h1
      by_cases hz : aget (numericCol n mm parents lp cols u1).diag mm = 0
      · rw [if_pos hz] at h1
        exact absurd h1 (by simp)
      · rw [if_neg hz] at h1
        obtain rfl := Option.some.inj h1
        refine ⟨numericCol n mm parents lp cols u2, ?_, hcd.1⟩
        rw [ldl_numeric_upto_succ, hu2, Option.some_bind]
        simp only [numericColChecked]
        rw [if_neg (by rw [← hcd.2]; exact hz)]

/-- C8: Re-running `ldl_numeric` over the same matrix, the same
`l_colptr`/`parents` structure and the same permutation is idempotent: with
the write cursors (`l_nz`) and scratch buffers (`y`, `pattern`, `flag`,
`diag`) reset to any well-sized contents and the output buffers
`l_indices`/`l_data` holding the first run's results, the second run
succeeds and produces identical `l_indices`, `l_data` and `diag`. -/
theorem ldl_numeric_rerun_idempotent
    (m : CsMat) (lp : List Nat) (parents : List Int) (perm perm_inv : List Nat)
    (sig1 sig2 t : NumState)
    (hchains : ∀ k, k < m.rows → ∀ iv ∈ outer_iterator_papt m perm perm_inv k,
      iv.1 < k → chainOk parents k m.rows iv.1 = true)
    (h1pat : sig1.pattern.length = m.rows) (h1flag : sig1.flag.length = m.rows)
    (h1nz : sig1.l_nz.length = m.rows) (h1dg : sig1.diag.length = m.rows)
    (h1y : sig1.y.length = m.rows)
    (h2pat : sig2.pattern.length = m.rows) (h2flag : sig2.flag.length = m.rows)
    (h2nz : sig2.l_nz.length = m.rows) (h2dg : sig2.diag.length = m.rows)
    (h2y : sig2.y.length = m.rows)
    (h2li : sig2.l_indices = t.l_indices) (h2ld : sig2.l_data = t.l_data)
    (hrun1 : ldl_numeric m lp parents perm perm_inv sig1 = some t) :
    ∃ t2, ldl_numeric m lp parents perm perm_inv sig2 = some t2 ∧
      t2.l_indices = t.l_indices ∧ t2.l_data = t.l_data ∧ t2.diag = t.diag := by
  have hrun1' : ldl_numeric_upto m.rows parents lp
      (outer_iterator_papt m perm perm_inv) sig1 m.rows = some t := hrun1
  obtain ⟨hlilen, hldlen⟩ := ldl_numeric_upto_lens m.rows parents lp
    (outer_iterator_papt m perm perm_inv) m.rows sig1 t hrun1'
  have h0 : NumRel m.rows 0 lp sig1 sig2 sig1 sig2 := by
    refine ⟨h1pat, h2pat, h1flag, h2flag, h1nz, h2nz, h1dg, h2dg, h1y, h2y,
      ?_, ?_, ?_, ?_, ?_, ?_, ?_, ?_, ?_⟩
    · rw [h2li, hlilen]
    · rw [h2ld, hldlen]
    · intro x hx
      exact absurd hx (Nat.not_lt_zero x)
    · intro x hx
      exact absurd hx (Nat.not_lt_zero x)
    · intro x hx
      exact absurd hx (Nat.not_lt_zero x)
    · intro x hx
      exact absurd hx (Nat.not_lt_zero x)
    · intro x hx
      exact absurd hx (Nat.not_lt_zero x)
    · intro i2 hi2
      exact absurd hi2 (Nat.not_lt_zero i2)
    · intro p
      exact Or.inr ⟨rfl, rfl, rfl, rfl⟩
  obtain ⟨t2, hrun2, hreln⟩ := ldl_numeric_upto_det m.rows parents lp
    (outer_iterator_papt m perm perm_inv) sig1 sig2 hchains m.rows
    (Nat.le_refl _) t hrun1' h0
  obtain ⟨h2lilen, h2ldlen⟩ := ldl_numeric_upto_lens m.rows parents lp
    (outer_iterator_papt m perm perm_inv) m.rows sig2 t2 hrun2
  refine ⟨t2, hrun2, ?_, ?_, ?_⟩
  · apply aget_ext
    · rw [h2lilen, h2li]
    · intro p _
      rcases hreln.untouched p with ⟨e1, _⟩ | ⟨_, e2, _, _⟩
      · exact e1.symm
      · rw [e2, h2li]
  · apply aget_ext
    · rw [h2ldlen, h2ld]
    · intro p _
      rcases hreln.untouched p with ⟨_, e1⟩ | ⟨_, _, _, e4⟩
      · exact e1.symm
      · rw [e4, h2ld]
  · apply aget_ext
    · rw [hreln.dlen2, hreln.dlen1]
    · intro x hx
      have hxn : x < m.rows := by rw [← hreln.dlen2]; exact hx
      exact (hreln.diagEq x hxn).symm

/-- First-run initial state for the idempotence witness: zeroed cursors and
scratch, one-slot output buffers. -/
def rerunSig1 : NumState :=
  { l_nz := [0, 0], l_indices := [0], l_data := [0], diag := [0, 0],
    y := [0, 0], pattern := [0, 0], flag := [0, 0] }

/-- First-run output on `smallMat`. -/
def rerunOut : NumState :=
  { l_nz := [1, 0], l_indices := [1], l_data := [1/2], diag := [2, 3/2],
    y := [0, 0], pattern := [0, 0], flag := [1, 1] }

/-- Second-run initial state: cursors and scratch freshly reset, output
buffers holding the first run's results. -/
def rerunSig2 : NumState :=
  { l_nz := [0, 0], l_indices := [1], l_data := [1/2], diag := [0, 0],
    y := [0, 0], pattern := [0, 0], flag := [0, 0] }

unseal Rat.add Rat.mul Rat.sub Rat.inv in
/-- Witness for C8: on the concrete 2×2 matrix the second run reproduces the
first run's `l_indices`, `l_data` and `diag` exactly. -/
theorem ldl_numeric_rerun_idempotent_witness :
    ∃ t2, ldl_numeric smallMat [0, 1, 1] [1, -1] [0, 1] [0, 1] rerunSig2 = some t2 ∧
      t2.l_indices = rerunOut.l_indices ∧ t2.l_data = rerunOut.l_data ∧
      t2.diag = rerunOut.diag :=
  ldl_numeric_rerun_idempotent smallMat [0, 1, 1] [1, -1] [0, 1] [0, 1]
    rerunSig1 rerunSig2 rerunOut (by decide) rfl rfl rfl rfl rfl rfl rfl rfl rfl
    rfl rfl rfl (by decide)
